import Mathlib

/-!
# Shader source preprocessing of `hazel::OpenGLShader`

A shallow embedding of `src/hazel/src/platform/opengl/opengl_shader.cpp`:
`ShaderTypeFromString`, `OpenGLShader::PreProcess`, the size assertion and the
shader-id loop of `OpenGLShader::Compile`, and the name extraction of the
file-path constructor.

* `std::string` is a list of characters (`Str`); positions are `size_t`
  values, that is natural numbers below `2 ^ 64`, and `npos` is `2 ^ 64 - 1`.
* `std::unordered_map<unsigned int, std::string>` is an association list with
  unique keys; `assign` is `m[k] = v`.  The order of the list (first insertion
  first) is a choice of the model: the iteration order of an unordered map is
  unspecified.
* A failed `HZ_CORE_ASSERT` and a thrown `std::out_of_range` end the run with
  a `Failure`.
-/

namespace hazel

/-- A `std::string`, as the sequence of its characters. -/
abbrev Str := List Char

/-- The number of values of `size_t`. -/
def sizeMod : Nat := 2 ^ 64

/-- The constant `std::string::npos`, the largest `size_t`. -/
def npos : Nat := 2 ^ 64 - 1

/-- Addition of `size_t` values (wraps around). -/
def sizeAdd (a b : Nat) : Nat := (a + b) % sizeMod

/-- Subtraction of `size_t` values (wraps around). -/
def sizeSub (a b : Nat) : Nat := (a % sizeMod + sizeMod - b % sizeMod) % sizeMod

/-- Ways in which a run of the embedded code ends without a result. -/
inductive Failure where
  /-- The assertion `HZ_CORE_ASSERT(false, "Unknown shader type!")`. -/
  | unknownShaderType
  /-- The assertion `HZ_CORE_ASSERT(eol != npos, "Syntax error")`. -/
  | syntaxError
  /-- The assertion `HZ_CORE_ASSERT(ShaderTypeFromString(type), "Invalid shader type specified")`. -/
  | invalidShaderType
  /-- The assertion `HZ_CORE_ASSERT(nextLinePos != npos, "syntax error")`. -/
  | syntaxErrorNextLine
  /-- The assertion `HZ_CORE_ASSERT(shaderSources.size() <= 2, "We only support 2 shaders for now")`. -/
  | tooManyShaders
  /-- The exception `std::out_of_range` thrown by `substr`. -/
  | outOfRange
  /-- The loop budget of the model ran out (shown never to happen). -/
  | outOfFuel
  deriving DecidableEq, Repr

/-- Modelled from the spec: `HZ_CORE_ASSERT` of `hazel/core/core.h`, which is not among the
sources.  The spec describes the error handling as "process assertion/abort": a false condition
ends the run with the failure named by the message, a true one lets it continue. -/
def HZ_CORE_ASSERT (cond : Bool) (msg : Failure) : Except Failure Unit :=
  if cond then .ok () else .error msg

/-- Modelled from the spec: the Vertex stage tag, "a raw numeric backend constant".  The
header `glad/glad.h` is not among the sources; the value is that of `GL_VERTEX_SHADER` in
the OpenGL headers. -/
def GL_VERTEX_SHADER : Nat := 0x8B31

/-- Modelled from the spec: the Fragment stage tag, "a raw numeric backend constant".  The
header `glad/glad.h` is not among the sources; the value is that of `GL_FRAGMENT_SHADER` in
the OpenGL headers. -/
def GL_FRAGMENT_SHADER : Nat := 0x8B30

/-! ## `std::string` operations -/

/-- Scan of the suffix `l`, whose first character has index `k`, for the first suffix
satisfying `p`; `npos` when there is none. -/
def findAt (p : Str → Bool) : Str → Nat → Nat
  | [], _ => npos
  | c :: cs, k => if p (c :: cs) then k else findAt p cs (k + 1)

/-- The call `s.find(tok, pos)` for a non-empty `tok`: index of the first occurrence of `tok`
starting at or after `pos`, or `npos`. -/
def find (s tok : Str) (pos : Nat) : Nat :=
  findAt (fun l => tok.isPrefixOf l) (s.drop pos) pos

/-- The call `s.find_first_of(c, pos)`: index of the first `c` at or after `pos`, or `npos`. -/
def find_first_of (s : Str) (c : Char) (pos : Nat) : Nat :=
  findAt (fun l => l.head? == some c) (s.drop pos) pos

/-- The call `s.find_first_not_of(c, pos)`: index of the first character other than `c` at or
after `pos`, or `npos`. -/
def find_first_not_of (s : Str) (c : Char) (pos : Nat) : Nat :=
  findAt (fun l => l.head? != some c) (s.drop pos) pos

/-- Scan from the left that remembers the index of the last character satisfying `p`. -/
def findLastAt (p : Char → Bool) : Str → Nat → Nat → Nat
  | [], _, acc => acc
  | c :: cs, k, acc => findLastAt p cs (k + 1) (if p c then k else acc)

/-- The call `s.find_last_of(set)`: index of the last character that is in `set`, or `npos`. -/
def find_last_of (s set : Str) : Nat :=
  findLastAt (fun c => set.contains c) s 0 npos

/-- The call `s.rfind(c)`: index of the last `c`, or `npos`. -/
def rfind (s : Str) (c : Char) : Nat :=
  findLastAt (fun d => d == c) s 0 npos

/-- The call `s.substr(pos, count)`: throws when `pos > s.size()`, otherwise the characters
from `pos` on, at most `count` of them. -/
def substr (s : Str) (pos count : Nat) : Except Failure Str :=
  if pos > s.length then .error .outOfRange else .ok ((s.drop pos).take count)

/-! ## The shader source map -/

/-- The type `std::unordered_map<unsigned int, std::string>`. -/
abbrev ShaderSources := List (Nat × Str)

/-- The assignment `m[k] = v`: replaces the text of an existing key, adds the key otherwise. -/
def assign : ShaderSources → Nat → Str → ShaderSources
  | [], k, v => [(k, v)]
  | (k', v') :: rest, k, v =>
    if k' = k then (k, v) :: rest else (k', v') :: assign rest k v

/-! ## `ShaderTypeFromString` and `PreProcess` -/

/-- The function `ShaderTypeFromString` (lines 13-19). -/
def ShaderTypeFromString (type : Str) : Except Failure Nat :=
  if type = "vertex".toList then .ok GL_VERTEX_SHADER
  else if type = "fragment".toList ∨ type = "pixel".toList then .ok GL_FRAGMENT_SHADER
  else do
    HZ_CORE_ASSERT false .unknownShaderType
    return 0

/-- The marker token `typeToken` of `PreProcess`. -/
def typeToken : Str := "#type".toList

/-- The value `typeTokenLength = strlen(typeToken)`. -/
def typeTokenLength : Nat := typeToken.length

/-- One run of the body of the `while` loop of `PreProcess` (lines 173-185), entered with
`pos != npos`: the new value of `pos` and the updated map. -/
def PreProcessBody (source : Str) (pos : Nat) (shaderSources : ShaderSources) :
    Except Failure (Nat × ShaderSources) := do
  let eol := find_first_of source '\n' pos
  HZ_CORE_ASSERT (eol != npos) .syntaxError
  let begin := sizeAdd (sizeAdd pos typeTokenLength) 1
  let type ← substr source begin (sizeSub eol begin)
  let tag ← ShaderTypeFromString type
  HZ_CORE_ASSERT (tag != 0) .invalidShaderType
  let nextLinePos := find_first_not_of source '\n' eol
  HZ_CORE_ASSERT (nextLinePos != npos) .syntaxErrorNextLine
  let pos' := find source typeToken nextLinePos
  let text ← substr source nextLinePos
    (sizeSub pos' (if nextLinePos = npos then sizeSub source.length 1 else nextLinePos))
  let key ← ShaderTypeFromString type
  return (pos', assign shaderSources key text)

/-- The `while (pos != npos)` loop of `PreProcess`, with a budget of iterations. -/
def PreProcessLoop (source : Str) : Nat → Nat → ShaderSources → Except Failure ShaderSources
  | 0, pos, shaderSources => if pos = npos then .ok shaderSources else .error .outOfFuel
  | fuel + 1, pos, shaderSources =>
    if pos = npos then .ok shaderSources
    else
      match PreProcessBody source pos shaderSources with
      | .error e => .error e
      | .ok (pos', shaderSources') => PreProcessLoop source fuel pos' shaderSources'

/-- The function `OpenGLShader::PreProcess` (lines 165-189).  The budget `source.length`
is never used up (`PreProcess_ne_outOfFuel`). -/
def PreProcess (source : Str) : Except Failure ShaderSources :=
  PreProcessLoop source source.length (find source typeToken 0) []

/-! ## Vocabulary of the statements -/

/-- The marker line `#type <name>\n`. -/
def marker (name : Str) : Str := typeToken ++ ' ' :: name ++ ['\n']

/-- A text without any occurrence of the marker token `#type`. -/
def tokenFree (s : Str) : Prop := ¬ typeToken <:+: s

instance (s : Str) : Decidable (tokenFree s) := by unfold tokenFree; infer_instance

/-- The text `s` without its leading `'\n'` characters. -/
def stripNewlines (s : Str) : Str := s.dropWhile (fun c => c == '\n')

/-- The token `#type` occurs in `s` at index `i`. -/
def occursAt (s : Str) (i : Nat) : Prop := typeToken <+: s.drop i

instance (s : Str) (i : Nat) : Decidable (occursAt s i) := by unfold occursAt; infer_instance



/-- The text of a sequence of blocks, each a marker line `#type <name>\n` and a body. -/
def render : List (Str × Str) → Str
  | [] => []
  | (name, body) :: blocks => marker name ++ body ++ render blocks

/-- The tag that `ShaderTypeFromString` gives a stage name (`0` for a name it rejects). -/
def stageTag (name : Str) : Nat :=
  match ShaderTypeFromString name with
  | .ok tag => tag
  | .error _ => 0

/-- The map after storing, block by block, the body without its leading line breaks under
the tag of the block's name. -/
def collect (m : ShaderSources) (blocks : List (Str × Str)) : ShaderSources :=
  blocks.foldl (fun acc b => assign acc (stageTag b.1) (stripNewlines b.2)) m

/-- The name is one of the three stage names `vertex`, `fragment` and `pixel`. -/
def validStage (name : Str) : Prop :=
  name = "vertex".toList ∨ name = "fragment".toList ∨ name = "pixel".toList

instance (name : Str) : Decidable (validStage name) := by unfold validStage; infer_instance

/-- The text has a character other than `'\n'`. -/
def hasText (s : Str) : Prop := ∃ c ∈ s, c ≠ '\n'

instance (s : Str) : Decidable (hasText s) := by unfold hasText; infer_instance

/-- Every block has a valid stage name and a token-free body, and the last body has a
character other than `'\n'`. -/
def wellFormed (blocks : List (Str × Str)) : Prop :=
  (∀ b ∈ blocks, validStage b.1 ∧ tokenFree b.2) ∧
  ∀ b ∈ blocks.getLast?, hasText b.2

instance (blocks : List (Str × Str)) : Decidable (wellFormed blocks) := by
  unfold wellFormed; infer_instance

/-! ## The scan of `PreProcess`, position by position -/

/-- The values of `pos` with which the loop of `PreProcess` enters its body, in order; a
copy of `PreProcessLoop` that records the positions instead of the map. -/
def PreProcessTrace (source : Str) : Nat → Nat → ShaderSources → List Nat
  | 0, _, _ => []
  | fuel + 1, pos, shaderSources =>
    if pos = npos then []
    else
      pos :: match PreProcessBody source pos shaderSources with
        | .error _ => []
        | .ok (pos', shaderSources') => PreProcessTrace source fuel pos' shaderSources'

/-- The positions that the scan of `PreProcess source` reaches. -/
def scanPositions (source : Str) : List Nat :=
  PreProcessTrace source source.length (find source typeToken 0) []

/-- The indices of `s` at which the token `#type` occurs, in increasing order. -/
def occurrences (s : Str) : List Nat :=
  (List.range s.length).filter (fun i => typeToken.isPrefixOf (s.drop i))

/-! ## `Compile`: the size assertion and the writes to `glShaderIDs` -/

/-- The assertion `HZ_CORE_ASSERT(shaderSources.size() <= 2, ...)` of `Compile` (line 194). -/
def CompileSizeAssert (shaderSources : ShaderSources) : Except Failure Unit :=
  HZ_CORE_ASSERT (decide (shaderSources.length ≤ 2)) .tooManyShaders

/-- The `for (auto& kv : shaderSources)` loop of `Compile` (lines 198-227), reduced to the
values of `glShaderIDIndex` at which it writes `glShaderIDs[glShaderIDIndex++]`.  The OpenGL
calls are outside the program: `isCompiled type source` stands for the compile status that
`glGetShaderiv` reports, and a failed compilation ends the loop. -/
def CompileWrites (isCompiled : Nat → Str → Bool) : ShaderSources → Nat → List Nat
  | [], _ => []
  | (type, source) :: rest, glShaderIDIndex =>
    if isCompiled type source then
      glShaderIDIndex :: CompileWrites isCompiled rest (glShaderIDIndex + 1)
    else []

/-! ## The name of a shader loaded from a file -/

/-- The name extraction of `OpenGLShader::OpenGLShader(const std::string& filepath)`
(lines 27-32): the value stored in `name_`. -/
def extractName (filepath : Str) : Except Failure Str :=
  let lastSlash := find_last_of filepath "/\\".toList
  let lastSlash := if lastSlash = npos then 0 else sizeAdd lastSlash 1
  let lastDot := rfind filepath '.'
  let count := if lastDot = npos then sizeSub filepath.length lastSlash
    else sizeSub lastDot lastSlash
  substr filepath lastSlash count

/-- The character is one of the two path separators `'/'` and `'\\'`. -/
def isSeparator (c : Char) : Bool := c == '/' || c == '\\'

/-- The final path component, in the words of the spec: the text after the last separator,
or the whole path when it has none. -/
def finalComponent (path : Str) : Str :=
  (path.reverse.takeWhile (fun c => !isSeparator c)).reverse

/-- The text cut just before its last `'.'`, or the whole text when it has no `'.'`. -/
def cutAtLastDot (s : Str) : Str :=
  if '.' ∈ s then (s.reverse.dropWhile (fun c => c != '.')).tail.reverse else s

-- Results of runs are compared by evaluation.
deriving instance DecidableEq for Except

/-! # Lemmas -/

/-! ### Arithmetic of `size_t` and the scan `findAt` -/

theorem sizeMod_eq : sizeMod = 18446744073709551616 := by decide
theorem npos_eq : npos = 18446744073709551615 := by decide

theorem sizeAdd_eq {a b : Nat} (h : a + b < sizeMod) : sizeAdd a b = a + b := by
  unfold sizeAdd; exact Nat.mod_eq_of_lt h

theorem sizeSub_eq {a b : Nat} (hb : b ≤ a) (ha : a < sizeMod) : sizeSub a b = a - b := by
  unfold sizeSub; rw [sizeMod_eq] at *; omega

theorem sizeSub_wrap {a b : Nat} (hb : a < b) (ha : b < sizeMod) :
    sizeSub a b = sizeMod + a - b := by
  unfold sizeSub; rw [sizeMod_eq] at *; omega

/-! ### `findAt` -/

theorem findAt_nil (p : Str → Bool) (k : Nat) : findAt p [] k = npos := rfl

theorem findAt_cons (p : Str → Bool) (c : Char) (cs : Str) (k : Nat) :
    findAt p (c :: cs) k = if p (c :: cs) then k else findAt p cs (k + 1) := rfl

theorem findAt_hit (p : Str → Bool) (l : Str) (k : Nat) (hl : l ≠ []) (h : p l = true) :
    findAt p l k = k := by
  cases l with
  | nil => exact absurd rfl hl
  | cons c cs => simp [findAt, h]

theorem findAt_skip (p : Str → Bool) (a b : Str) (k : Nat)
    (h : ∀ j, j < a.length → p ((a ++ b).drop j) = false) :
    findAt p (a ++ b) k = findAt p b (k + a.length) := by
  induction a generalizing k with
  | nil => simp
  | cons c cs ih =>
    have h0 := h 0 (by simp)
    simp only [List.drop_zero, List.cons_append] at h0
    rw [List.cons_append, findAt_cons, h0, if_neg (by simp), ih]
    · congr 1; simp only [List.length_cons]; omega
    · intro j hj
      have := h (j + 1) (by simp; omega)
      simpa using this

theorem findAt_none (p : Str → Bool) (l : Str) (k : Nat)
    (h : ∀ j, j < l.length → p (l.drop j) = false) : findAt p l k = npos := by
  have := findAt_skip p l [] k (by simpa using h)
  simpa [findAt] using this

/-- The result of a scan is `npos` with no match at all, or the index of the first match. -/
theorem findAt_cases (p : Str → Bool) (l : Str) (k : Nat) :
    (findAt p l k = npos ∧ ∀ j, j < l.length → p (l.drop j) = false) ∨
    ∃ j, j < l.length ∧ findAt p l k = k + j ∧ p (l.drop j) = true ∧
      ∀ i, i < j → p (l.drop i) = false := by
  induction l generalizing k with
  | nil => left; simp [findAt]
  | cons c cs ih =>
    by_cases hp : p (c :: cs) = true
    · right
      exact ⟨0, by simp, by simp [findAt, hp], by simpa using hp, by simp⟩
    · have hp' : p (c :: cs) = false := by simpa using hp
      rcases ih (k + 1) with ⟨h1, h2⟩ | ⟨j, hj, h1, h2, h3⟩
      · left
        refine ⟨by simp [findAt, hp', h1], ?_⟩
        intro j hj
        cases j with
        | zero => simpa using hp'
        | succ j => simpa using h2 j (by simpa using hj)
      · right
        refine ⟨j + 1, by simpa using hj, by simp [findAt, hp', h1]; omega, by simpa using h2, ?_⟩
        intro i hi
        cases i with
        | zero => simpa using hp'
        | succ i => simpa using h3 i (by omega)

theorem typeToken_eq : typeToken = ['#', 't', 'y', 'p', 'e'] := rfl

theorem typeTokenLength_eq : typeTokenLength = 5 := rfl

/-! ### The three searches on a text split into parts -/

theorem findAt_char_skip (c : Char) (a b : Str) (k : Nat) (h : ∀ d ∈ a, d ≠ c) :
    findAt (fun l => l.head? == some c) (a ++ b) k =
      findAt (fun l => l.head? == some c) b (k + a.length) := by
  induction a generalizing k with
  | nil => simp
  | cons d ds ih =>
    have hd : d ≠ c := h d (by simp)
    rw [List.cons_append, findAt_cons, if_neg (by simpa using hd), ih _ (fun e he => h e (by simp [he]))]
    congr 1; simp only [List.length_cons]; omega

theorem findAt_notChar_skip (c : Char) (a b : Str) (k : Nat) (h : ∀ d ∈ a, d = c) :
    findAt (fun l => l.head? != some c) (a ++ b) k =
      findAt (fun l => l.head? != some c) b (k + a.length) := by
  induction a generalizing k with
  | nil => simp
  | cons d ds ih =>
    have hd : d = c := h d (by simp)
    rw [List.cons_append, findAt_cons, if_neg (by simp [hd]), ih _ (fun e he => h e (by simp [he]))]
    congr 1; simp only [List.length_cons]; omega

theorem find_first_of_split (pre a b : Str) (c : Char) (h : ∀ d ∈ a, d ≠ c) :
    find_first_of (pre ++ (a ++ c :: b)) c pre.length = pre.length + a.length := by
  unfold find_first_of
  rw [List.drop_left, findAt_char_skip c a _ _ h, findAt_cons, if_pos (by simp)]

theorem find_first_of_none (s : Str) (c : Char) (pos : Nat) (h : ∀ d ∈ s.drop pos, d ≠ c) :
    find_first_of s c pos = npos := by
  unfold find_first_of
  have := findAt_char_skip c (s.drop pos) [] pos h
  simpa [findAt_nil] using this

theorem find_first_not_of_split (pre a b : Str) (c d : Char) (h : ∀ e ∈ a, e = c) (hd : d ≠ c) :
    find_first_not_of (pre ++ (a ++ d :: b)) c pre.length = pre.length + a.length := by
  unfold find_first_not_of
  rw [List.drop_left, findAt_notChar_skip c a _ _ h, findAt_cons, if_pos (by simpa using hd)]

theorem find_first_not_of_none (pre a : Str) (c : Char) (h : ∀ e ∈ a, e = c) :
    find_first_not_of (pre ++ a) c pre.length = npos := by
  unfold find_first_not_of
  have := findAt_notChar_skip c a [] pre.length h
  rw [List.drop_left]
  simpa [findAt_nil] using this

theorem isPrefixOf_eq_false {t l : Str} (h : ¬ t <+: l) : t.isPrefixOf l = false := by
  cases hb : t.isPrefixOf l with
  | false => rfl
  | true => exact absurd (List.isPrefixOf_iff_prefix.mp hb) h

/-- An occurrence of the token that starts inside a token-free text `a` cannot run over
into a following token: `'#'` is not among the later characters of `#type`. -/
theorem not_prefix_boundary (a r : Str) (ha : tokenFree a) (j : Nat) (hj : j < a.length) :
    ¬ typeToken <+: (a ++ (typeToken ++ r)).drop j := by
  intro h
  rw [List.drop_append_of_le_length (Nat.le_of_lt hj)] at h
  have hfree : ¬ typeToken <+: a.drop j := fun h' =>
    ha (h'.isInfix.trans (List.drop_suffix j a).isInfix)
  have hne : a.drop j ≠ [] := by
    intro h0
    have := congrArg List.length h0
    simp at this; omega
  generalize a.drop j = a' at h hfree hne
  rw [typeToken_eq] at h hfree
  rcases a' with _ | ⟨c0, _ | ⟨c1, _ | ⟨c2, _ | ⟨c3, _ | ⟨c4, cs⟩⟩⟩⟩⟩
  · exact hne rfl
  · simp_all
  · simp_all
  · simp_all
  · simp_all
  · simp only [List.cons_append, List.cons_prefix_cons, List.nil_prefix, and_true] at h hfree
    exact hfree h

theorem find_token_split (pre a r : Str) (ha : tokenFree a) :
    find (pre ++ (a ++ (typeToken ++ r))) typeToken pre.length = pre.length + a.length := by
  unfold find
  rw [List.drop_left, findAt_skip _ a _ _ (fun j hj =>
    isPrefixOf_eq_false (not_prefix_boundary a r ha j hj)), findAt_hit]
  · simp [typeToken_eq]
  · simp

theorem find_token_none (pre a : Str) (ha : tokenFree a) :
    find (pre ++ a) typeToken pre.length = npos := by
  unfold find
  rw [List.drop_left]
  apply findAt_none
  intro j _
  have : ¬ typeToken <+: a.drop j := fun h' =>
    ha (h'.isInfix.trans (List.drop_suffix j a).isInfix)
  exact isPrefixOf_eq_false this

theorem find_first_of_at {s u a b : Str} {c : Char} {k : Nat}
    (hs : s = u ++ (a ++ c :: b)) (hk : k = u.length) (h : ∀ d ∈ a, d ≠ c) :
    find_first_of s c k = k + a.length := by
  subst hs hk; exact find_first_of_split u a b c h

theorem find_first_not_of_at {s u a b : Str} {c d : Char} {k : Nat}
    (hs : s = u ++ (a ++ d :: b)) (hk : k = u.length) (h : ∀ e ∈ a, e = c)
    (hd : d ≠ c) : find_first_not_of s c k = k + a.length := by
  subst hs hk; exact find_first_not_of_split u a b c d h hd

theorem find_first_not_of_none_at {s u a : Str} {c : Char} {k : Nat}
    (hs : s = u ++ a) (hk : k = u.length) (h : ∀ e ∈ a, e = c) :
    find_first_not_of s c k = npos := by
  subst hs hk; exact find_first_not_of_none u a c h

theorem find_token_at {s u a r : Str} {k : Nat}
    (hs : s = u ++ (a ++ (typeToken ++ r))) (hk : k = u.length) (ha : tokenFree a) :
    find s typeToken k = k + a.length := by
  subst hs hk; exact find_token_split u a r ha

theorem find_token_none_at {s u a : Str} {k : Nat}
    (hs : s = u ++ a) (hk : k = u.length) (ha : tokenFree a) :
    find s typeToken k = npos := by
  subst hs hk; exact find_token_none u a ha

theorem substr_at {s u a b : Str} {k count : Nat}
    (hs : s = u ++ (a ++ b)) (hk : k = u.length) (hcount : count = a.length) :
    substr s k count = .ok a := by
  subst hs hk hcount
  unfold substr
  rw [if_neg (by simp), List.drop_left, List.take_left]

theorem substr_rest_at {s u a : Str} {k count : Nat}
    (hs : s = u ++ a) (hk : k = u.length) (hcount : a.length ≤ count) :
    substr s k count = .ok a := by
  subst hs hk
  unfold substr
  rw [if_neg (by simp), List.drop_left, List.take_of_length_le hcount]

/-- A name that resolves to a tag is one of the three stage names: it has no line break, no
`'#'`, does not start with `'t'`, and its tag is one of the two OpenGL constants. -/
theorem ShaderTypeFromString_ok {name : Str} {tag : Nat}
    (h : ShaderTypeFromString name = .ok tag) :
    (name = "vertex".toList ∨ name = "fragment".toList ∨ name = "pixel".toList) ∧
    (tag = GL_VERTEX_SHADER ∨ tag = GL_FRAGMENT_SHADER) := by
  unfold ShaderTypeFromString at h
  split at h
  · rename_i h1
    exact ⟨Or.inl h1, Or.inl (by injection h with h; exact h.symm)⟩
  · split at h
    · rename_i h1 h2
      exact ⟨Or.inr h2, Or.inr (by injection h with h; exact h.symm)⟩
    · simp [HZ_CORE_ASSERT, bind, Except.bind] at h

theorem ShaderTypeFromString_ok_chars {name : Str} {tag : Nat}
    (h : ShaderTypeFromString name = .ok tag) :
    (∀ d ∈ name, d ≠ '\n') ∧ (∀ d ∈ name, d ≠ '#') ∧ name.head? ≠ some 't' ∧ tag ≠ 0 := by
  obtain ⟨h1, h2⟩ := ShaderTypeFromString_ok h
  refine ⟨?_, ?_, ?_, ?_⟩
  · rcases h1 with rfl | rfl | rfl <;> decide
  · rcases h1 with rfl | rfl | rfl <;> decide
  · rcases h1 with rfl | rfl | rfl <;> decide
  · rcases h2 with rfl | rfl <;> decide

/-- The first steps of the loop body at a marker line `#type <name>\n`: the line end is found
behind the name, and the text between the token and the line end is the name. -/
theorem marker_line (pre name post : Str) (hname : ∀ c ∈ name, c ≠ '\n')
    (hlen : (pre ++ (marker name ++ post)).length < npos) :
    find_first_of (pre ++ (marker name ++ post)) '\n' pre.length =
      pre.length + (6 + name.length) ∧
    substr (pre ++ (marker name ++ post)) (sizeAdd (sizeAdd pre.length typeTokenLength) 1)
      (sizeSub (pre.length + (6 + name.length))
        (sizeAdd (sizeAdd pre.length typeTokenLength) 1)) = .ok name := by
  generalize hsrc : pre ++ (marker name ++ post) = source at hlen
  have hL : source.length = pre.length + 6 + name.length + 1 + post.length := by
    subst hsrc; simp [marker, typeToken_eq]; omega
  rw [npos_eq] at hlen
  have h1 : find_first_of source '\n' pre.length = pre.length + (6 + name.length) := by
    have := find_first_of_at (s := source) (u := pre) (a := typeToken ++ ' ' :: name)
      (b := post) (c := '\n') (k := pre.length)
      (by subst hsrc; simp [marker]) rfl
      (by intro e he
          simp only [typeToken_eq, List.cons_append, List.nil_append, List.mem_cons] at he
          rcases he with rfl | rfl | rfl | rfl | rfl | rfl | he
          any_goals decide
          exact hname e he)
    rw [this]; simp [typeToken_eq]; omega
  have hbegin : sizeAdd (sizeAdd pre.length typeTokenLength) 1 = pre.length + 6 := by
    have h5 : sizeAdd pre.length 5 = pre.length + 5 := sizeAdd_eq (by rw [sizeMod_eq]; omega)
    rw [typeTokenLength_eq, h5, sizeAdd_eq (by rw [sizeMod_eq]; omega)]
  refine ⟨h1, ?_⟩
  rw [hbegin]
  apply substr_at (u := pre ++ typeToken ++ [' ']) (b := '\n' :: post)
  · subst hsrc; simp [marker]
  · simp [typeToken_eq]
  · rw [sizeSub_eq] <;> first | omega | (rw [sizeMod_eq]; omega)

/-- One run of the loop body on a block: a marker line with a valid name at `pos`, then
line breaks `nl`, then a token-free text that is followed by the next token or by the end of
the input.  The map receives the text, and `pos` moves to the next token. -/
theorem PreProcessBody_split (pre name nl text rest : Str) (m : ShaderSources) (tag : Nat)
    (hname : ShaderTypeFromString name = .ok tag)
    (hnl : ∀ c ∈ nl, c = '\n') (htext : tokenFree text)
    (hhead : ∃ d tl, text ++ rest = d :: tl ∧ d ≠ '\n')
    (hrest : rest = [] ∨ ∃ r, rest = typeToken ++ r)
    (hlen : (pre ++ (typeToken ++ ' ' :: (name ++ '\n' :: (nl ++ (text ++ rest))))).length < npos) :
    PreProcessBody (pre ++ (typeToken ++ ' ' :: (name ++ '\n' :: (nl ++ (text ++ rest)))))
        pre.length m =
      .ok (if rest = [] then npos
            else pre.length + 6 + name.length + 1 + nl.length + text.length,
           assign m tag text) := by
  obtain ⟨hnn, -, -, htag⟩ := ShaderTypeFromString_ok_chars hname
  obtain ⟨d, tl, hd, hdne⟩ := hhead
  generalize hsrc : pre ++ (typeToken ++ ' ' :: (name ++ '\n' :: (nl ++ (text ++ rest)))) = source
    at hlen
  have hL : source.length =
      pre.length + 6 + name.length + 1 + nl.length + text.length + rest.length := by
    subst hsrc; simp [typeToken_eq]; omega
  rw [npos_eq] at hlen
  obtain ⟨h1, h2⟩ : find_first_of source '\n' pre.length = pre.length + (6 + name.length) ∧
      substr source (sizeAdd (sizeAdd pre.length typeTokenLength) 1)
        (sizeSub (pre.length + (6 + name.length))
          (sizeAdd (sizeAdd pre.length typeTokenLength) 1)) = .ok name := by
    have := marker_line pre name (nl ++ (text ++ rest)) hnn
      (by rw [npos_eq]; simp [marker, typeToken_eq]; omega)
    have hm : pre ++ (marker name ++ (nl ++ (text ++ rest))) = source := by
      subst hsrc; simp [marker]
    rwa [hm] at this
  have h3 : find_first_not_of source '\n' (pre.length + (6 + name.length)) =
      pre.length + 6 + name.length + 1 + nl.length := by
    have := find_first_not_of_at (s := source) (u := pre ++ typeToken ++ ' ' :: name)
      (a := '\n' :: nl) (b := tl) (c := '\n') (d := d) (k := pre.length + (6 + name.length))
      (by subst hsrc; simp [← hd]) (by simp [typeToken_eq]; omega)
      (by intro e he
          rcases List.mem_cons.mp he with rfl | he
          · rfl
          · exact hnl e he)
      hdne
    rw [this]; simp; omega
  have hpre3 : (pre ++ typeToken ++ ' ' :: name ++ '\n' :: nl).length =
      pre.length + 6 + name.length + 1 + nl.length := by
    simp [typeToken_eq]; omega
  have h4 : find source typeToken (pre.length + 6 + name.length + 1 + nl.length) =
      if rest = [] then npos
      else pre.length + 6 + name.length + 1 + nl.length + text.length := by
    rcases hrest with rfl | ⟨r, rfl⟩
    · rw [if_pos rfl]
      exact find_token_none_at (u := pre ++ typeToken ++ ' ' :: name ++ '\n' :: nl)
        (a := text) (by subst hsrc; simp) hpre3.symm htext
    · rw [if_neg (by simp [typeToken_eq])]
      exact find_token_at (u := pre ++ typeToken ++ ' ' :: name ++ '\n' :: nl)
        (a := text) (r := r) (by subst hsrc; simp) hpre3.symm htext
  have h5 : substr source (pre.length + 6 + name.length + 1 + nl.length)
      (sizeSub (if rest = [] then npos
        else pre.length + 6 + name.length + 1 + nl.length + text.length)
        (pre.length + 6 + name.length + 1 + nl.length)) = .ok text := by
    rcases hrest with rfl | ⟨r, rfl⟩
    · rw [if_pos rfl]
      apply substr_rest_at (u := pre ++ typeToken ++ ' ' :: name ++ '\n' :: nl)
      · subst hsrc; simp
      · exact hpre3.symm
      · rw [sizeSub_eq] <;> rw [npos_eq] <;> first | omega | (rw [sizeMod_eq]; omega)
    · rw [if_neg (by simp [typeToken_eq])]
      apply substr_at (u := pre ++ typeToken ++ ' ' :: name ++ '\n' :: nl)
        (b := typeToken ++ r)
      · subst hsrc; simp
      · exact hpre3.symm
      · rw [sizeSub_eq] <;> first | omega | (rw [sizeMod_eq]; omega)
  have hne1 : pre.length + (6 + name.length) ≠ npos := by rw [npos_eq]; omega
  have hne2 : pre.length + 6 + name.length + 1 + nl.length ≠ npos := by rw [npos_eq]; omega
  unfold PreProcessBody
  simp only [h1, h2, hname, h3, h4, h5, hne1, hne2, HZ_CORE_ASSERT, bind, Except.bind,
    pure, Except.pure, bne_iff_ne, ne_eq, not_false_eq_true, decide_True, if_true, if_false,
    htag, decide_not, Bool.not_eq_true', decide_eq_false_iff_not]

/-! ### The loop on a well-formed sequence of blocks -/

theorem PreProcessLoop_npos (source : Str) (fuel : Nat) (m : ShaderSources) :
    PreProcessLoop source fuel npos m = .ok m := by
  cases fuel <;> simp [PreProcessLoop]

theorem PreProcessLoop_succ (source : Str) (fuel pos : Nat) (m : ShaderSources)
    (hpos : pos ≠ npos) :
    PreProcessLoop source (fuel + 1) pos m =
      match PreProcessBody source pos m with
      | .error e => .error e
      | .ok (pos', m') => PreProcessLoop source fuel pos' m' := by
  rw [PreProcessLoop, if_neg hpos]

theorem ShaderTypeFromString_valid {name : Str} (h : validStage name) :
    ShaderTypeFromString name = .ok (stageTag name) := by
  rcases h with rfl | rfl | rfl <;> rfl

theorem ShaderTypeFromString_invalid {name : Str} (h : ¬ validStage name) :
    ShaderTypeFromString name = .error .unknownShaderType := by
  unfold validStage at h
  unfold ShaderTypeFromString
  rw [if_neg (fun h1 => h (Or.inl h1)), if_neg (fun h1 => h (Or.inr h1))]
  rfl

theorem hasText_iff (s : Str) : hasText s ↔ stripNewlines s ≠ [] := by
  unfold hasText stripNewlines
  rw [ne_eq, List.dropWhile_eq_nil_iff]
  simp

theorem render_cons_token (b : Str × Str) (bs : List (Str × Str)) :
    ∃ r, render (b :: bs) = typeToken ++ r := by
  obtain ⟨name, body⟩ := b
  exact ⟨' ' :: name ++ ['\n'] ++ body ++ render bs, by simp [render, marker]⟩

theorem stripNewlines_head (s : Str) (d : Char) (tl : Str) (h : stripNewlines s = d :: tl) :
    d ≠ '\n' := by
  have := List.head_dropWhile_not (fun c => c == '\n') s (by
    unfold stripNewlines at h; rw [h]; simp)
  unfold stripNewlines at h
  simp only [h, List.head_cons] at this
  simpa using this

theorem tokenFree_stripNewlines {s : Str} (h : tokenFree s) : tokenFree (stripNewlines s) :=
  fun h' => h (h'.trans (List.dropWhile_suffix _).isInfix)

theorem render_length (blocks : List (Str × Str)) : blocks.length ≤ (render blocks).length := by
  induction blocks with
  | nil => simp
  | cons b bs ih =>
    obtain ⟨name, body⟩ := b
    simp [render, marker, typeToken_eq]; omega

/-- The loop, started at the first marker of a well-formed sequence of blocks, stores every
block and ends. -/
theorem PreProcessLoop_render (blocks : List (Str × Str)) :
    ∀ (pre : Str) (m : ShaderSources) (fuel : Nat), blocks ≠ [] → wellFormed blocks →
      blocks.length ≤ fuel → (pre ++ render blocks).length < npos →
      PreProcessLoop (pre ++ render blocks) fuel pre.length m = .ok (collect m blocks) := by
  induction blocks with
  | nil => intro _ _ _ h; exact absurd rfl h
  | cons b bs ih =>
    intro pre m fuel _ hwf hfuel hlen
    obtain ⟨name, body⟩ := b
    obtain ⟨hall, hlast⟩ := hwf
    obtain ⟨hvalid, hfree⟩ : validStage name ∧ tokenFree body := hall (name, body) (by simp)
    have hname := ShaderTypeFromString_valid hvalid
    obtain ⟨fuel, rfl⟩ : ∃ f, fuel = f + 1 := ⟨fuel - 1, by simp at hfuel; omega⟩
    have hsplit : body = body.takeWhile (fun c => c == '\n') ++ stripNewlines body :=
      (List.takeWhile_append_dropWhile _ body).symm
    have hnl : ∀ c ∈ body.takeWhile (fun c => c == '\n'), c = '\n' := fun c hc => by
      simpa using List.mem_takeWhile_imp hc
    have hsrc : pre ++ render ((name, body) :: bs) =
        pre ++ (typeToken ++ ' ' :: (name ++ '\n' ::
          (body.takeWhile (fun c => c == '\n') ++ (stripNewlines body ++ render bs)))) := by
      conv_lhs => rw [render, hsplit]
      simp [marker]
    have hposne : pre.length ≠ npos := by
      intro h
      rw [List.length_append, h] at hlen
      omega
    have hhead : ∃ d tl, stripNewlines body ++ render bs = d :: tl ∧ d ≠ '\n' := by
      cases hs : stripNewlines body with
      | cons d tl => exact ⟨d, tl ++ render bs, by simp, stripNewlines_head body d tl hs⟩
      | nil =>
        cases bs with
        | nil => exact absurd hs ((hasText_iff body).mp (hlast (name, body) (by simp)))
        | cons b' bs' =>
          obtain ⟨r, hr⟩ := render_cons_token b' bs'
          exact ⟨'#', typeToken.tail ++ r, by rw [hr]; simp [typeToken_eq], by decide⟩
    have hrest : render bs = [] ∨ ∃ r, render bs = typeToken ++ r := by
      cases bs with
      | nil => left; rfl
      | cons b' bs' => right; exact render_cons_token b' bs'
    have hbody := PreProcessBody_split pre name _ (stripNewlines body) (render bs) m
      (stageTag name) hname hnl (tokenFree_stripNewlines hfree) hhead hrest (by rw [← hsrc]; exact hlen)
    rw [← hsrc] at hbody
    rw [PreProcessLoop_succ _ _ _ _ hposne, hbody]
    cases bs with
    | nil =>
      simp only [render, if_true, PreProcessLoop_npos]
      simp [collect]
    | cons b' bs' =>
      obtain ⟨r, hr⟩ := render_cons_token b' bs'
      rw [if_neg (by rw [hr]; simp [typeToken_eq])]
      have hpre : pre ++ render ((name, body) :: b' :: bs') =
          (pre ++ marker name ++ body) ++ render (b' :: bs') := by
        simp [render]
      have hposlen : pre.length + 6 + name.length + 1 +
          (body.takeWhile (fun c => c == '\n')).length + (stripNewlines body).length =
          (pre ++ marker name ++ body).length := by
        have := congrArg List.length hsplit
        simp only [List.length_append] at this
        simp [marker, typeToken_eq]; omega
      have := ih (pre ++ marker name ++ body) (assign m (stageTag name) (stripNewlines body))
        fuel (by simp) ⟨fun b hb => hall b (by simp [hb]), fun b hb => hlast b (by
          rw [List.getLast?_cons_cons]; exact hb)⟩ (by simpa using hfuel) (by rw [← hpre]; exact hlen)
      simp only []
      rw [hposlen, hpre, this]
      simp [collect]

/-- On a token-free text followed by a well-formed sequence of blocks, `PreProcess` returns
the map collected from the blocks; the text before the first marker is dropped. -/
theorem PreProcess_render (head : Str) (blocks : List (Str × Str)) (hhead : tokenFree head)
    (hwf : wellFormed blocks) (hlen : (head ++ render blocks).length < npos) :
    PreProcess (head ++ render blocks) = .ok (collect [] blocks) := by
  unfold PreProcess
  cases blocks with
  | nil =>
    have : find (head ++ render []) typeToken 0 = npos :=
      find_token_none_at (u := []) (a := head) (by simp [render]) rfl hhead
    rw [this, PreProcessLoop_npos]; rfl
  | cons b bs =>
    obtain ⟨r, hr⟩ := render_cons_token b bs
    have : find (head ++ render (b :: bs)) typeToken 0 = head.length := by
      have := find_token_at (s := head ++ render (b :: bs)) (u := []) (a := head) (r := r)
        (k := 0) (by rw [hr]; simp) rfl hhead
      simpa using this
    rw [this]
    apply PreProcessLoop_render _ _ _ _ (by simp) hwf _ hlen
    have := render_length (b :: bs)
    simp only [List.length_append]; omega

theorem assign_nil (k : Nat) (v : Str) : assign [] k v = [(k, v)] := rfl

theorem assign_same (k : Nat) (v w : Str) (rest : ShaderSources) :
    assign ((k, v) :: rest) k w = (k, w) :: rest := by
  simp [assign]

theorem assign_new (m : ShaderSources) (k : Nat) (v : Str) (h : ∀ kv ∈ m, kv.1 ≠ k) :
    assign m k v = m ++ [(k, v)] := by
  induction m with
  | nil => rfl
  | cons kv rest ih =>
    obtain ⟨k', v'⟩ := kv
    have hk : k' ≠ k := h (k', v') (by simp)
    simp only [assign, if_neg hk, List.cons_append]
    rw [ih (fun kv hkv => h kv (by simp [hkv]))]

/-- Blocks with pairwise different tags give one entry each, in the order of the blocks. -/
theorem collect_nodup (blocks : List (Str × Str)) (m : ShaderSources)
    (hnd : (blocks.map (fun b => stageTag b.1)).Nodup)
    (hm : ∀ kv ∈ m, ∀ b ∈ blocks, kv.1 ≠ stageTag b.1) :
    collect m blocks = m ++ blocks.map (fun b => (stageTag b.1, stripNewlines b.2)) := by
  induction blocks generalizing m with
  | nil => simp [collect]
  | cons b bs ih =>
    rw [List.map_cons, List.nodup_cons] at hnd
    have hnew := assign_new m (stageTag b.1) (stripNewlines b.2)
      (fun kv hkv => hm kv hkv b (by simp))
    have := ih (assign m (stageTag b.1) (stripNewlines b.2)) hnd.2 (by
      intro kv hkv b' hb'
      rw [hnew] at hkv
      rcases List.mem_append.mp hkv with hkv | hkv
      · exact hm kv hkv b' (by simp [hb'])
      · simp only [List.mem_singleton] at hkv
        subst hkv
        intro heq
        exact hnd.1 (List.mem_map.mpr ⟨b', hb', heq.symm⟩))
    simp only [collect, List.foldl_cons] at this ⊢
    rw [this, hnew]
    simp

/-! ### What the loop does on an arbitrary input -/

/-- What a successful run of the loop body tells: both searches found something, the text
after the token is a valid stage name, the next position is where the token is found next,
and the map got one assignment under that name's tag. -/
theorem PreProcessBody_ok {source : Str} {pos pos' : Nat} {m m' : ShaderSources}
    (h : PreProcessBody source pos m = .ok (pos', m')) :
    ∃ type tag text,
      find_first_of source '\n' pos ≠ npos ∧
      substr source (sizeAdd (sizeAdd pos typeTokenLength) 1)
        (sizeSub (find_first_of source '\n' pos) (sizeAdd (sizeAdd pos typeTokenLength) 1)) =
          .ok type ∧
      ShaderTypeFromString type = .ok tag ∧
      find_first_not_of source '\n' (find_first_of source '\n' pos) ≠ npos ∧
      pos' = find source typeToken
        (find_first_not_of source '\n' (find_first_of source '\n' pos)) ∧
      m' = assign m tag text := by
  unfold PreProcessBody at h
  simp only [HZ_CORE_ASSERT, bind, Except.bind, pure, Except.pure] at h
  by_cases h1 : find_first_of source '\n' pos = npos
  · simp [h1] at h
  simp only [bne_iff_ne, ne_eq, h1, not_false_eq_true, if_true] at h
  cases h2 : substr source (sizeAdd (sizeAdd pos typeTokenLength) 1)
      (sizeSub (find_first_of source '\n' pos) (sizeAdd (sizeAdd pos typeTokenLength) 1)) with
  | error e => simp [h2] at h
  | ok type =>
    simp only [h2] at h
    cases h3 : ShaderTypeFromString type with
    | error e => simp [h3] at h
    | ok tag =>
      simp only [h3] at h
      by_cases h4 : tag = 0
      · simp [h4] at h
      simp only [h4, not_false_eq_true, if_true] at h
      by_cases h5 : find_first_not_of source '\n' (find_first_of source '\n' pos) = npos
      · simp [h5] at h
      simp only [h5, not_false_eq_true, if_true, if_false] at h
      split at h
      · cases h
      · rename_i text htext
        simp only [Except.ok.injEq, Prod.mk.injEq] at h
        exact ⟨type, tag, text, h1, rfl, h3, h5, h.1.symm, h.2.symm⟩

theorem head?_drop_drop (s : Str) (pos j : Nat) : ((s.drop pos).drop j).head? = s[pos + j]? := by
  rw [List.drop_drop, List.head?_drop]

theorem find_first_of_cases (s : Str) (c : Char) (pos : Nat) :
    (find_first_of s c pos = npos ∧ ∀ i, s[pos + i]? ≠ some c) ∨
    ∃ j, find_first_of s c pos = pos + j ∧ pos + j < s.length ∧ s[pos + j]? = some c ∧
      ∀ i, i < j → s[pos + i]? ≠ some c := by
  unfold find_first_of
  rcases findAt_cases (fun l => l.head? == some c) (s.drop pos) pos with
    ⟨h1, h2⟩ | ⟨j, hj, h1, h2, h3⟩
  · left
    refine ⟨h1, fun i => ?_⟩
    by_cases hi : i < (s.drop pos).length
    · have := h2 i hi
      simpa [head?_drop_drop] using this
    · have : s.length ≤ pos + i := by simp at hi; omega
      rw [List.getElem?_eq_none this]; simp
  · right
    refine ⟨j, h1, by simp at hj; omega, by simpa [head?_drop_drop] using h2, fun i hi => ?_⟩
    simpa [head?_drop_drop] using h3 i hi

theorem find_first_not_of_cases (s : Str) (c : Char) (pos : Nat) :
    find_first_not_of s c pos = npos ∨
    ∃ j, find_first_not_of s c pos = pos + j ∧ pos + j < s.length ∧ s[pos + j]? ≠ some c ∧
      ∀ i, i < j → s[pos + i]? = some c := by
  unfold find_first_not_of
  rcases findAt_cases (fun l => l.head? != some c) (s.drop pos) pos with
    ⟨h1, -⟩ | ⟨j, hj, h1, h2, h3⟩
  · left; exact h1
  · right
    refine ⟨j, h1, by simp at hj; omega, by simpa [head?_drop_drop] using h2, fun i hi => ?_⟩
    simpa [head?_drop_drop] using h3 i hi

theorem not_prefix_of_eq_false {t l : Str} (h : t.isPrefixOf l = false) : ¬ t <+: l := by
  intro hp
  rw [List.isPrefixOf_iff_prefix.mpr hp] at h
  cases h

theorem find_cases (s : Str) (pos : Nat) :
    (find s typeToken pos = npos ∧ ∀ i, ¬ occursAt s (pos + i)) ∨
    ∃ j, find s typeToken pos = pos + j ∧ pos + j < s.length ∧ occursAt s (pos + j) ∧
      ∀ i, i < j → ¬ occursAt s (pos + i) := by
  unfold find occursAt
  rcases findAt_cases (fun l => typeToken.isPrefixOf l) (s.drop pos) pos with
    ⟨h1, h2⟩ | ⟨j, hj, h1, h2, h3⟩
  · left
    refine ⟨h1, fun i => ?_⟩
    by_cases hi : i < (s.drop pos).length
    · have := not_prefix_of_eq_false (h2 i hi)
      simpa [List.drop_drop] using this
    · have : s.length ≤ pos + i := by simp at hi; omega
      rw [List.drop_eq_nil_of_le this]; simp [typeToken_eq]
  · right
    refine ⟨j, h1, by simp at hj; omega, by simpa [List.drop_drop] using h2, fun i hi => ?_⟩
    simpa [List.drop_drop] using not_prefix_of_eq_false (h3 i hi)

/-- The five characters of an occurrence of the token. -/
theorem occursAt_chars {s : Str} {p : Nat} (h : occursAt s p) :
    s[p]? = some '#' ∧ s[p + 1]? = some 't' ∧ s[p + 2]? = some 'y' ∧ s[p + 3]? = some 'p' ∧
      s[p + 4]? = some 'e' := by
  obtain ⟨r, hr⟩ := h
  have key : ∀ i, s[p + i]? = (typeToken ++ r)[i]? := fun i => by
    rw [hr, List.getElem?_drop]
  refine ⟨?_, ?_, ?_, ?_, ?_⟩
  · simpa [typeToken_eq] using key 0
  · simpa [typeToken_eq] using key 1
  · simpa [typeToken_eq] using key 2
  · simpa [typeToken_eq] using key 3
  · simpa [typeToken_eq] using key 4

/-- In a successful run of the loop body the positions move forward:
`pos <= eol < nextLinePos`, and the next marker is found at or after `nextLinePos`, unless
there is none. -/
theorem PreProcessBody_advance {source : Str} {pos pos' : Nat} {m m' : ShaderSources}
    (h : PreProcessBody source pos m = .ok (pos', m')) :
    pos ≤ find_first_of source '\n' pos ∧
    find_first_of source '\n' pos < find_first_not_of source '\n' (find_first_of source '\n' pos) ∧
    find_first_not_of source '\n' (find_first_of source '\n' pos) < source.length ∧
    (pos' = npos ∨
      (find_first_not_of source '\n' (find_first_of source '\n' pos) ≤ pos' ∧
        pos' < source.length ∧ occursAt source pos')) := by
  obtain ⟨type, tag, text, h1, -, -, h4, h5, -⟩ := PreProcessBody_ok h
  rcases find_first_of_cases source '\n' pos with ⟨e1, -⟩ | ⟨j, e1, -, e2, -⟩
  · exact absurd e1 h1
  rcases find_first_not_of_cases source '\n' (find_first_of source '\n' pos) with
    e3 | ⟨j', e3, e4, e5, -⟩
  · exact absurd e3 h4
  have hj' : j' ≠ 0 := by
    rintro rfl
    rw [e1] at e5
    exact e5 e2
  refine ⟨by omega, by omega, by omega, ?_⟩
  rcases find_cases source (find_first_not_of source '\n' (find_first_of source '\n' pos)) with
    ⟨e6, -⟩ | ⟨j'', e6, e7, e8, -⟩
  · left; rw [h5, e6]
  · right
    rw [h5, e6]
    exact ⟨by omega, e7, e8⟩

/-- No occurrence of the token is skipped: when the loop body succeeds at an occurrence
`pos`, every later occurrence lies at or after `nextLinePos`, where the next search starts. -/
theorem PreProcessBody_no_skip {source : Str} {pos pos' p : Nat} {m m' : ShaderSources}
    (h : PreProcessBody source pos m = .ok (pos', m')) (hlen : source.length < npos)
    (hpos : occursAt source pos) (hlt : pos < p) (hp : occursAt source p) :
    find_first_not_of source '\n' (find_first_of source '\n' pos) ≤ p := by
  obtain ⟨type, tag, text, h1, h2, h3, h4, -, -⟩ := PreProcessBody_ok h
  obtain ⟨-, hhash, hhead, -⟩ := ShaderTypeFromString_ok_chars h3
  rcases find_first_of_cases source '\n' pos with ⟨e1, -⟩ | ⟨j, e1, e2, e3, e4⟩
  · exact absurd e1 h1
  rcases find_first_not_of_cases source '\n' (find_first_of source '\n' pos) with
    e5 | ⟨j', e5, -, -, e6⟩
  · exact absurd e5 h4
  obtain ⟨c0, c1, c2, c3, c4⟩ := occursAt_chars hpos
  obtain ⟨d0, d1, -, -, -⟩ := occursAt_chars hp
  rw [npos_eq] at hlen
  by_contra hcon
  rw [e5, e1] at hcon
  -- the first line break after `pos` comes after the five characters of the token
  have hj5 : 5 ≤ j := by
    by_contra hj
    have : j = 0 ∨ j = 1 ∨ j = 2 ∨ j = 3 ∨ j = 4 := by omega
    rcases this with rfl | rfl | rfl | rfl | rfl <;> simp_all
  by_cases hpe : pos + j ≤ p
  · -- `p` among the line breaks between `eol` and `nextLinePos`
    have := e6 (p - (pos + j)) (by omega)
    rw [e1, show pos + j + (p - (pos + j)) = p by omega, d0] at this
    simp at this
  · obtain ⟨d, rfl, hd0, hdj⟩ : ∃ d, p = pos + d ∧ 0 < d ∧ d < j := ⟨p - pos, by omega, by omega, by omega⟩
    have hbegin : sizeAdd (sizeAdd pos typeTokenLength) 1 = pos + 6 := by
      have h5 : sizeAdd pos 5 = pos + 5 := sizeAdd_eq (by rw [sizeMod_eq]; omega)
      rw [typeTokenLength_eq, h5, sizeAdd_eq (by rw [sizeMod_eq]; omega)]
    by_cases hd5 : d < 5
    · have : d = 1 ∨ d = 2 ∨ d = 3 ∨ d = 4 := by omega
      rcases this with rfl | rfl | rfl | rfl <;> simp_all
    · have hj6 : 6 ≤ j := by omega
      rw [hbegin, e1, sizeSub_eq (by omega) (by rw [sizeMod_eq]; omega)] at h2
      unfold substr at h2
      rw [if_neg (by omega)] at h2
      injection h2 with h2
      have htype : ∀ i, i < j - 6 → type[i]? = source[pos + 6 + i]? := fun i hi => by
        rw [← h2, List.getElem?_take_of_lt (by omega), List.getElem?_drop]
      by_cases hd6 : d = 5
      · subst hd6
        have ht : source[pos + 6]? = some 't' := d1
        have hj7 : j ≠ 6 := by
          rintro rfl
          rw [ht] at e3; simp at e3
        have := htype 0 (by omega)
        rw [Nat.add_zero, ht, ← List.head?_eq_getElem?] at this
        exact hhead this
      · have := htype (d - 6) (by omega)
        rw [show pos + 6 + (d - 6) = pos + d by omega, d0] at this
        exact hhash _ (List.getElem?_mem this) rfl

/-- The failures that the loop body can end with. -/
theorem PreProcessBody_error {source : Str} {pos : Nat} {m : ShaderSources} {e : Failure}
    (h : PreProcessBody source pos m = .error e) :
    e = .syntaxError ∨ e = .outOfRange ∨ e = .unknownShaderType ∨ e = .invalidShaderType ∨
      e = .syntaxErrorNextLine := by
  unfold PreProcessBody at h
  simp only [HZ_CORE_ASSERT, bind, Except.bind, pure, Except.pure] at h
  by_cases h1 : find_first_of source '\n' pos = npos
  · simp [h1] at h; exact Or.inl h.symm
  simp only [bne_iff_ne, ne_eq, h1, not_false_eq_true, if_true] at h
  cases h2 : substr source (sizeAdd (sizeAdd pos typeTokenLength) 1)
      (sizeSub (find_first_of source '\n' pos) (sizeAdd (sizeAdd pos typeTokenLength) 1)) with
  | error e' =>
    simp only [h2] at h
    unfold substr at h2
    split at h2
    · injection h2 with h2; injection h with h
      right; left; rw [← h, ← h2]
    · cases h2
  | ok type =>
    simp only [h2] at h
    cases h3 : ShaderTypeFromString type with
    | error e' =>
      simp only [h3] at h
      unfold ShaderTypeFromString at h3
      split at h3
      · cases h3
      · split at h3
        · cases h3
        · simp [HZ_CORE_ASSERT, bind, Except.bind] at h3
          injection h with h
          right; right; left; rw [← h, ← h3]
    | ok tag =>
      simp only [h3] at h
      by_cases h4 : tag = 0
      · simp [h4] at h; right; right; right; left; exact h.symm
      simp only [h4, not_false_eq_true, if_true] at h
      by_cases h5 : find_first_not_of source '\n' (find_first_of source '\n' pos) = npos
      · simp [h5] at h; right; right; right; right; exact h.symm
      simp only [h5, not_false_eq_true, if_true, if_false] at h
      split at h
      · rename_i e' he'
        unfold substr at he'
        split at he'
        · injection he' with he'; injection h with h
          right; left; rw [← h, ← he']
        · cases he'
      · cases h

/-- With a budget that covers the rest of the input the loop does not run out of it. -/
theorem PreProcessLoop_ne_outOfFuel (source : Str) :
    ∀ (fuel pos : Nat) (m : ShaderSources),
      (pos = npos ∨ (pos < source.length ∧ source.length ≤ pos + fuel)) →
      PreProcessLoop source fuel pos m ≠ .error .outOfFuel := by
  intro fuel
  induction fuel with
  | zero =>
    intro pos m h
    rcases h with rfl | ⟨h1, h2⟩
    · simp [PreProcessLoop]
    · omega
  | succ fuel ih =>
    intro pos m h
    by_cases hpos : pos = npos
    · subst hpos; simp [PreProcessLoop_npos]
    rcases h with h | ⟨h1, h2⟩
    · exact absurd h hpos
    rw [PreProcessLoop_succ _ _ _ _ hpos]
    cases hb : PreProcessBody source pos m with
    | error e =>
      simp only []
      intro he
      injection he with he
      subst he
      have := PreProcessBody_error hb
      simp at this
    | ok r =>
      obtain ⟨pos', m'⟩ := r
      simp only []
      obtain ⟨a1, a2, a3, a4⟩ := PreProcessBody_advance hb
      apply ih
      rcases a4 with a4 | ⟨a4, a5, -⟩
      · left; exact a4
      · right; exact ⟨a5, by omega⟩

theorem PreProcess_ne_outOfFuel (source : Str) : PreProcess source ≠ .error .outOfFuel := by
  unfold PreProcess
  apply PreProcessLoop_ne_outOfFuel
  rcases find_cases source 0 with ⟨h, -⟩ | ⟨j, h1, h2, -⟩
  · left; exact h
  · right; rw [h1]; exact ⟨h2, by omega⟩

/-- A result obtained within a budget is the result for every larger budget. -/
theorem PreProcessLoop_fuel_mono (source : Str) :
    ∀ (fuel extra pos : Nat) (m : ShaderSources),
      PreProcessLoop source fuel pos m ≠ .error .outOfFuel →
      PreProcessLoop source (fuel + extra) pos m = PreProcessLoop source fuel pos m := by
  intro fuel
  induction fuel with
  | zero =>
    intro extra pos m h
    by_cases hpos : pos = npos
    · subst hpos; simp [PreProcessLoop_npos]
    · simp [PreProcessLoop, hpos] at h
  | succ fuel ih =>
    intro extra pos m h
    by_cases hpos : pos = npos
    · subst hpos; simp [PreProcessLoop_npos]
    rw [show fuel + 1 + extra = (fuel + extra) + 1 by omega, PreProcessLoop_succ _ _ _ _ hpos]
    rw [PreProcessLoop_succ _ _ _ _ hpos] at h ⊢
    cases hb : PreProcessBody source pos m with
    | error e => rfl
    | ok r =>
      obtain ⟨pos', m'⟩ := r
      rw [hb] at h
      exact ih extra pos' m' h

/-- If the loop body fails at some occurrence of the token, then `PreProcess` fails, at that
occurrence or earlier: the scan leaves no occurrence out. -/
theorem PreProcessLoop_bad_occurrence {source : Str} (hlen : source.length < npos) {p : Nat}
    (hp : occursAt source p) (hbad : ∀ m, ∃ e, PreProcessBody source p m = .error e) :
    ∀ (fuel q : Nat) (m r : ShaderSources), q ≤ p →
      PreProcessLoop source fuel (find source typeToken q) m ≠ .ok r := by
  intro fuel
  induction fuel with
  | zero =>
    intro q m r hq
    rcases find_cases source q with ⟨-, h2⟩ | ⟨j, h1, h2, -, -⟩
    · exact absurd (by rw [show q + (p - q) = p by omega]; exact hp) (h2 (p - q))
    · have : find source typeToken q ≠ npos := by rw [h1]; omega
      simp [PreProcessLoop, this]
  | succ fuel ih =>
    intro q m r hq
    rcases find_cases source q with ⟨-, h2⟩ | ⟨j, h1, h2, h3, h4⟩
    · exact absurd (by rw [show q + (p - q) = p by omega]; exact hp) (h2 (p - q))
    have hne : find source typeToken q ≠ npos := by rw [h1]; omega
    have hle : q + j ≤ p := by
      by_contra hcon
      exact h4 (p - q) (by omega) (by rw [show q + (p - q) = p by omega]; exact hp)
    rw [PreProcessLoop_succ _ _ _ _ hne, h1]
    by_cases hpe : q + j = p
    · obtain ⟨e, he⟩ := hbad m
      rw [hpe, he]
      simp
    · cases hb : PreProcessBody source (q + j) m with
      | error e => simp
      | ok res =>
        obtain ⟨pos', m'⟩ := res
        simp only []
        obtain ⟨_, _, _, _, _, _, _, h5, _⟩ := PreProcessBody_ok hb
        rw [h5]
        exact ih _ m' r (PreProcessBody_no_skip hb hlen h3 (by omega) hp)

theorem PreProcess_bad_occurrence {source : Str} (hlen : source.length < npos) {p : Nat}
    (hp : occursAt source p) (hbad : ∀ m, ∃ e, PreProcessBody source p m = .error e) :
    ∃ e, PreProcess source = .error e ∧ e ≠ .outOfFuel := by
  cases h : PreProcess source with
  | ok r => exact absurd h (PreProcessLoop_bad_occurrence hlen hp hbad _ 0 [] r (Nat.zero_le _))
  | error e => exact ⟨e, rfl, fun he => PreProcess_ne_outOfFuel source (by rw [h, he])⟩

/-! ### The positions that the scan reaches -/

theorem PreProcessTrace_npos (source : Str) (fuel : Nat) (m : ShaderSources) :
    PreProcessTrace source fuel npos m = [] := by
  cases fuel <;> simp [PreProcessTrace]

theorem PreProcessTrace_succ (source : Str) (fuel pos : Nat) (m : ShaderSources)
    (hpos : pos ≠ npos) :
    PreProcessTrace source (fuel + 1) pos m =
      pos :: match PreProcessBody source pos m with
        | .error _ => []
        | .ok (pos', m') => PreProcessTrace source fuel pos' m' := by
  rw [PreProcessTrace, if_neg hpos]

/-- Every position that the loop reaches from an occurrence `pos` is an occurrence of the
token at or after `pos`. -/
theorem PreProcessTrace_mem (source : Str) :
    ∀ (fuel pos : Nat) (m : ShaderSources), (pos < source.length ∧ occursAt source pos) →
      ∀ x ∈ PreProcessTrace source fuel pos m, pos ≤ x ∧ x < source.length ∧ occursAt source x := by
  intro fuel
  induction fuel with
  | zero => intro pos m _ x hx; simp [PreProcessTrace] at hx
  | succ fuel ih =>
    intro pos m hpos x hx
    by_cases hn : pos = npos
    · subst hn; simp [PreProcessTrace_npos] at hx
    rw [PreProcessTrace_succ _ _ _ _ hn] at hx
    rcases List.mem_cons.mp hx with rfl | hx
    · exact ⟨Nat.le_refl _, hpos.1, hpos.2⟩
    cases hb : PreProcessBody source pos m with
    | error e => rw [hb] at hx; simp at hx
    | ok r =>
      obtain ⟨pos', m'⟩ := r
      rw [hb] at hx
      simp only [] at hx
      obtain ⟨a1, a2, a3, a4⟩ := PreProcessBody_advance hb
      rcases a4 with a4 | ⟨a4, a5, a6⟩
      · subst a4; simp [PreProcessTrace_npos] at hx
      · obtain ⟨b1, b2, b3⟩ := ih pos' m' ⟨a5, a6⟩ x hx
        exact ⟨by omega, b2, b3⟩

/-- The positions that the loop reaches are strictly increasing. -/
theorem PreProcessTrace_sorted (source : Str) :
    ∀ (fuel pos : Nat) (m : ShaderSources), (pos < source.length ∧ occursAt source pos) →
      (PreProcessTrace source fuel pos m).Pairwise (fun a b => a < b) := by
  intro fuel
  induction fuel with
  | zero => intro pos m _; simp [PreProcessTrace]
  | succ fuel ih =>
    intro pos m hpos
    by_cases hn : pos = npos
    · subst hn; simp [PreProcessTrace_npos]
    rw [PreProcessTrace_succ _ _ _ _ hn]
    cases hb : PreProcessBody source pos m with
    | error e => simp
    | ok r =>
      obtain ⟨pos', m'⟩ := r
      simp only []
      obtain ⟨a1, a2, a3, a4⟩ := PreProcessBody_advance hb
      rcases a4 with a4 | ⟨a4, a5, a6⟩
      · subst a4; simp [PreProcessTrace_npos]
      · rw [List.pairwise_cons]
        refine ⟨fun x hx => ?_, ih pos' m' ⟨a5, a6⟩⟩
        have := (PreProcessTrace_mem source fuel pos' m' ⟨a5, a6⟩ x hx).1
        omega

theorem scanPositions_spec (source : Str) :
    (scanPositions source).Pairwise (fun a b => a < b) ∧
    ∀ x ∈ scanPositions source, x < source.length ∧ occursAt source x := by
  unfold scanPositions
  rcases find_cases source 0 with ⟨h, -⟩ | ⟨j, h1, h2, h3, -⟩
  · rw [h, PreProcessTrace_npos]; simp
  · rw [h1]
    exact ⟨PreProcessTrace_sorted source _ _ _ ⟨h2, h3⟩,
      fun x hx => (PreProcessTrace_mem source _ _ _ ⟨h2, h3⟩ x hx).2⟩

theorem scanPositions_sublist (source : Str) :
    (scanPositions source).Sublist (occurrences source) := by
  obtain ⟨h1, h2⟩ := scanPositions_spec source
  have hsorted : (occurrences source).Sorted (fun a b => a < b) :=
    (List.sorted_lt_range source.length).filter _
  apply List.sublist_of_subperm_of_sorted _ h1 hsorted
  apply List.subperm_of_subset (h1.imp (fun h => Nat.ne_of_lt h))
  intro x hx
  obtain ⟨h3, h4⟩ := h2 x hx
  unfold occurrences
  rw [List.mem_filter]
  exact ⟨List.mem_range.mpr h3, List.isPrefixOf_iff_prefix.mpr h4⟩

/-! ### The keys of the map -/

theorem assign_keys (m : ShaderSources) (k : Nat) (v : Str) :
    (assign m k v).map Prod.fst =
      if k ∈ m.map Prod.fst then m.map Prod.fst else m.map Prod.fst ++ [k] := by
  induction m with
  | nil => simp [assign]
  | cons kv rest ih =>
    obtain ⟨k', v'⟩ := kv
    by_cases hk : k' = k
    · subst hk; simp [assign]
    · have hk' : ¬ k = k' := fun h => hk h.symm
      simp only [assign, if_neg hk, List.map_cons, ih, List.mem_cons, hk', false_or]
      split <;> simp

theorem assign_keys_nodup (m : ShaderSources) (k : Nat) (v : Str)
    (h : (m.map Prod.fst).Nodup) : ((assign m k v).map Prod.fst).Nodup := by
  rw [assign_keys]
  split
  · exact h
  · rename_i hk
    rw [List.nodup_append]
    exact ⟨h, List.nodup_singleton k, by
      intro a ha hb
      rw [List.mem_singleton] at hb
      exact hk (hb ▸ ha)⟩

theorem assign_keys_mem (m : ShaderSources) (k : Nat) (v : Str) (P : Nat → Prop)
    (h : ∀ x ∈ m.map Prod.fst, P x) (hk : P k) : ∀ x ∈ (assign m k v).map Prod.fst, P x := by
  rw [assign_keys]
  split
  · exact h
  · intro x hx
    rcases List.mem_append.mp hx with hx | hx
    · exact h x hx
    · rw [List.mem_singleton] at hx; exact hx ▸ hk

/-- The loop keeps the keys of the map distinct and among the two OpenGL stage constants. -/
theorem PreProcessLoop_keys (source : Str) :
    ∀ (fuel pos : Nat) (m r : ShaderSources),
      (m.map Prod.fst).Nodup →
      (∀ x ∈ m.map Prod.fst, x = GL_VERTEX_SHADER ∨ x = GL_FRAGMENT_SHADER) →
      PreProcessLoop source fuel pos m = .ok r →
      (r.map Prod.fst).Nodup ∧
        ∀ x ∈ r.map Prod.fst, x = GL_VERTEX_SHADER ∨ x = GL_FRAGMENT_SHADER := by
  intro fuel
  induction fuel with
  | zero =>
    intro pos m r h1 h2 h
    by_cases hn : pos = npos
    · simp only [PreProcessLoop, hn, if_true, Except.ok.injEq] at h
      subst h; exact ⟨h1, h2⟩
    · simp [PreProcessLoop, hn] at h
  | succ fuel ih =>
    intro pos m r h1 h2 h
    by_cases hn : pos = npos
    · subst hn
      rw [PreProcessLoop_npos] at h
      injection h with h
      subst h; exact ⟨h1, h2⟩
    rw [PreProcessLoop_succ _ _ _ _ hn] at h
    cases hb : PreProcessBody source pos m with
    | error e => rw [hb] at h; cases h
    | ok res =>
      obtain ⟨pos', m'⟩ := res
      rw [hb] at h
      obtain ⟨type, tag, text, -, -, h3, -, -, h6⟩ := PreProcessBody_ok hb
      subst h6
      exact ih pos' _ r (assign_keys_nodup m tag text h1)
        (assign_keys_mem m tag text _ h2 (ShaderTypeFromString_ok h3).2) h

theorem keys_length_le_two (r : ShaderSources) (h1 : (r.map Prod.fst).Nodup)
    (h2 : ∀ x ∈ r.map Prod.fst, x = GL_VERTEX_SHADER ∨ x = GL_FRAGMENT_SHADER) :
    r.length ≤ 2 := by
  have hsub : r.map Prod.fst ⊆ [GL_VERTEX_SHADER, GL_FRAGMENT_SHADER] := by
    intro x hx
    rcases h2 x hx with rfl | rfl <;> simp
  have := (List.subperm_of_subset h1 hsub).length_le
  simpa using this

theorem CompileWrites_lt (isCompiled : Nat → Str → Bool) (m : ShaderSources) (k : Nat) :
    ∀ i ∈ CompileWrites isCompiled m k, i < k + m.length := by
  induction m generalizing k with
  | nil => intro i hi; simp [CompileWrites] at hi
  | cons kv rest ih =>
    obtain ⟨type, source⟩ := kv
    intro i hi
    simp only [CompileWrites] at hi
    split at hi
    · rcases List.mem_cons.mp hi with rfl | hi
      · simp
      · have := ih (k + 1) i hi
        simp only [List.length_cons]; omega
    · simp at hi

/-! ### The searches from the right -/

theorem findLastAt_cons (p : Char → Bool) (c : Char) (cs : Str) (k acc : Nat) :
    findLastAt p (c :: cs) k acc = findLastAt p cs (k + 1) (if p c then k else acc) := rfl

theorem findLastAt_none (p : Char → Bool) (l : Str) (k acc : Nat)
    (h : ∀ c ∈ l, p c = false) : findLastAt p l k acc = acc := by
  induction l generalizing k acc with
  | nil => rfl
  | cons c cs ih =>
    simp only [findLastAt, h c (by simp), Bool.false_eq_true, if_false]
    exact ih _ _ (fun d hd => h d (by simp [hd]))

theorem findLastAt_split (p : Char → Bool) (a b : Str) (c : Char) (k acc : Nat)
    (hc : p c = true) (hb : ∀ d ∈ b, p d = false) :
    findLastAt p (a ++ c :: b) k acc = k + a.length := by
  induction a generalizing k acc with
  | nil => simp [findLastAt, hc, findLastAt_none p b _ _ hb]
  | cons x xs ih =>
    rw [List.cons_append, findLastAt_cons, ih, List.length_cons]
    omega

/-- A text either has no character satisfying `p`, or splits at the last such character. -/
theorem split_last (p : Char → Bool) (l : Str) :
    ((∀ c ∈ l, p c = false) ∧ (l.reverse.takeWhile (fun x => !p x)).reverse = l) ∨
    ∃ a c b, l = a ++ c :: b ∧ p c = true ∧ (∀ d ∈ b, p d = false) ∧
      a = (l.reverse.dropWhile (fun x => !p x)).tail.reverse ∧
      b = (l.reverse.takeWhile (fun x => !p x)).reverse := by
  have hsplit := List.takeWhile_append_dropWhile (fun x => !p x) l.reverse
  have hb : ∀ d ∈ (l.reverse.takeWhile (fun x => !p x)).reverse, p d = false := by
    intro d hd
    have := List.mem_takeWhile_imp (List.mem_reverse.mp hd)
    simpa using this
  cases hd : l.reverse.dropWhile (fun x => !p x) with
  | nil =>
    left
    rw [hd, List.append_nil] at hsplit
    rw [hsplit, List.reverse_reverse] at hb ⊢
    exact ⟨hb, rfl⟩
  | cons c t =>
    right
    refine ⟨t.reverse, c, (l.reverse.takeWhile (fun x => !p x)).reverse, ?_, ?_, hb, by simp, rfl⟩
    · have := congrArg List.reverse hsplit
      rw [hd] at this
      simp only [List.reverse_append, List.reverse_cons, List.reverse_reverse] at this
      refine this.symm.trans ?_
      simp
    · have := List.head_dropWhile_not (fun x => !p x) l.reverse (by rw [hd]; simp)
      simp only [hd, List.head_cons] at this
      simpa using this

theorem cutAtLastDot_split (a b : Str) (hb : ∀ d ∈ b, d ≠ '.') :
    cutAtLastDot (a ++ '.' :: b) = a := by
  unfold cutAtLastDot
  rw [if_pos (by simp)]
  have h1 : (a ++ '.' :: b).reverse = b.reverse ++ '.' :: a.reverse := by simp
  have h2 : List.dropWhile (fun c => c != '.') (b.reverse ++ '.' :: a.reverse) =
      '.' :: a.reverse := by
    rw [List.dropWhile_append_of_pos (fun d hd => by simpa using hb d (List.mem_reverse.mp hd))]
    simp [List.dropWhile]
  rw [h1, h2]; simp

theorem cutAtLastDot_none (s : Str) (h : ∀ d ∈ s, d ≠ '.') : cutAtLastDot s = s := by
  unfold cutAtLastDot
  rw [if_neg (fun hm => h _ hm rfl)]

theorem contains_separators (c : Char) : "/\\".toList.contains c = isSeparator c := by
  have : "/\\".toList = ['/', '\\'] := rfl
  rw [this]
  unfold isSeparator
  simp [List.contains, List.elem]
  cases h1 : c == '/' <;> cases h2 : c == '\\' <;> simp_all

/-- The start index `lastSlash` of the name is the length of the directory part. -/
theorem lastSlash_split (dir comp : Str) (hcomp : ∀ d ∈ comp, isSeparator d = false)
    (hdir : dir = [] ∨ ∃ d c, dir = d ++ [c] ∧ isSeparator c = true)
    (hlen : (dir ++ comp).length < npos) :
    (if find_last_of (dir ++ comp) "/\\".toList = npos then 0
      else sizeAdd (find_last_of (dir ++ comp) "/\\".toList) 1) = dir.length := by
  rw [npos_eq] at hlen
  simp only [List.length_append] at hlen
  unfold find_last_of
  simp only [contains_separators]
  rcases hdir with rfl | ⟨d, c, rfl, hc⟩
  · rw [List.nil_append, findLastAt_none _ _ _ _ hcomp]; simp
  · rw [List.append_assoc, List.singleton_append, findLastAt_split _ d comp c 0 npos hc hcomp]
    simp only [List.length_append, List.length_singleton] at hlen ⊢
    rw [if_neg (by rw [npos_eq]; omega), sizeAdd_eq (by rw [sizeMod_eq]; omega)]
    omega

/-- The name extraction on a path split into the directory part (empty, or ending in a
separator) and a final component without separators. -/
theorem extractName_split (dir comp : Str) (hcomp : ∀ d ∈ comp, isSeparator d = false)
    (hdir : dir = [] ∨ ∃ d c, dir = d ++ [c] ∧ isSeparator c = true)
    (hlen : (dir ++ comp).length < npos) :
    extractName (dir ++ comp) = .ok (cutAtLastDot comp) := by
  have hslash := lastSlash_split dir comp hcomp hdir hlen
  rw [npos_eq] at hlen
  simp only [List.length_append] at hlen
  unfold extractName
  simp only [hslash]
  rcases split_last (fun c => c == '.') comp with ⟨hnone, -⟩ | ⟨a, c, b, hab, hc, hb, -, -⟩
  · rw [cutAtLastDot_none comp (fun d hd => by simpa using hnone d hd)]
    rcases split_last (fun c => c == '.') dir with ⟨hnone', -⟩ | ⟨x, c, y, hxy, hc, hy, -, -⟩
    · have : rfind (dir ++ comp) '.' = npos := by
        unfold rfind
        apply findLastAt_none
        intro d hd
        rcases List.mem_append.mp hd with hd | hd
        · exact hnone' d hd
        · exact hnone d hd
      rw [this, if_pos rfl]
      apply substr_at (u := dir) (a := comp) (b := []) (by simp) rfl
      rw [sizeSub_eq (by simp) (by rw [sizeMod_eq]; simp; omega)]
      simp
    · have hc' : c = '.' := by simpa using hc
      subst hc'
      have : rfind (dir ++ comp) '.' = x.length := by
        unfold rfind
        rw [hxy, List.append_assoc, List.cons_append,
          findLastAt_split _ x (y ++ comp) '.' 0 npos (by simp) (by
            intro d hd
            rcases List.mem_append.mp hd with hd | hd
            · exact hy d hd
            · exact hnone d hd)]
        simp
      have hdl : dir.length = x.length + 1 + y.length := by rw [hxy]; simp; omega
      rw [this, if_neg (by rw [npos_eq]; omega)]
      apply substr_rest_at (u := dir) (a := comp) rfl rfl
      rw [sizeSub_wrap (by omega) (by rw [sizeMod_eq]; omega), sizeMod_eq]
      omega
  · have hc' : c = '.' := by simpa using hc
    subst hc'
    rw [hab, cutAtLastDot_split a b (fun d hd => by simpa using hb d hd)]
    have : rfind (dir ++ (a ++ '.' :: b)) '.' = dir.length + a.length := by
      unfold rfind
      rw [← List.append_assoc, findLastAt_split _ (dir ++ a) b '.' 0 npos (by simp) hb]
      simp
    have hcl : comp.length = a.length + 1 + b.length := by rw [hab]; simp; omega
    rw [this, if_neg (by rw [npos_eq]; omega)]
    apply substr_at (u := dir) (a := a) (b := '.' :: b) rfl rfl
    rw [sizeSub_eq (by omega) (by rw [sizeMod_eq]; omega)]
    omega

/-- Every path is its directory part followed by its final component. -/
theorem path_split (path : Str) :
    ∃ dir, path = dir ++ finalComponent path ∧
      (∀ d ∈ finalComponent path, isSeparator d = false) ∧
      (dir = [] ∨ ∃ d c, dir = d ++ [c] ∧ isSeparator c = true) := by
  unfold finalComponent
  rcases split_last isSeparator path with ⟨hnone, hall⟩ | ⟨a, c, b, hab, hc, hb, -, hbeq⟩
  · exact ⟨[], by rw [hall]; rfl, by rw [hall]; exact hnone, Or.inl rfl⟩
  · refine ⟨a ++ [c], ?_, ?_, Or.inr ⟨a, c, rfl, hc⟩⟩
    · rw [← hbeq]; simpa using hab
    · rw [← hbeq]; exact hb

/-! ### Failures at a marker -/

/-- The loop body fails at a marker line whose name is not a stage name. -/
theorem PreProcessBody_marker_invalid (pre name post : Str) (m : ShaderSources)
    (hname : ∀ c ∈ name, c ≠ '\n') (hbad : ¬ validStage name)
    (hlen : (pre ++ (marker name ++ post)).length < npos) :
    PreProcessBody (pre ++ (marker name ++ post)) pre.length m = .error .unknownShaderType := by
  obtain ⟨h1, h2⟩ := marker_line pre name post hname hlen
  have hne : pre.length + (6 + name.length) ≠ npos := by
    simp only [List.length_append] at hlen
    have : (marker name).length = 6 + name.length + 1 := by simp [marker, typeToken_eq]; omega
    omega
  unfold PreProcessBody
  simp only [h1, h2, ShaderTypeFromString_invalid hbad, HZ_CORE_ASSERT, bind, Except.bind,
    bne_iff_ne, ne_eq, hne, not_false_eq_true, decide_True, if_true]

/-- The loop body fails at a marker line with a valid name that only line breaks follow. -/
theorem PreProcessBody_marker_end (pre name nl : Str) (m : ShaderSources)
    (hvalid : validStage name) (hnl : ∀ c ∈ nl, c = '\n')
    (hlen : (pre ++ (marker name ++ nl)).length < npos) :
    PreProcessBody (pre ++ (marker name ++ nl)) pre.length m = .error .syntaxErrorNextLine := by
  have hname := ShaderTypeFromString_valid hvalid
  obtain ⟨hnn, -, -, htag⟩ := ShaderTypeFromString_ok_chars hname
  obtain ⟨h1, h2⟩ := marker_line pre name nl hnn hlen
  have hne : pre.length + (6 + name.length) ≠ npos := by
    simp only [List.length_append] at hlen
    have : (marker name).length = 6 + name.length + 1 := by simp [marker, typeToken_eq]; omega
    omega
  have h3 : find_first_not_of (pre ++ (marker name ++ nl)) '\n'
      (pre.length + (6 + name.length)) = npos := by
    apply find_first_not_of_none_at (u := pre ++ typeToken ++ ' ' :: name) (a := '\n' :: nl)
    · simp [marker]
    · simp [typeToken_eq]; omega
    · intro e he
      rcases List.mem_cons.mp he with rfl | he
      · rfl
      · exact hnl e he
  unfold PreProcessBody
  simp only [h1, h2, h3, hname, htag, HZ_CORE_ASSERT, bind, Except.bind,
    bne_iff_ne, ne_eq, hne, not_false_eq_true, decide_True, if_true, not_true_eq_false,
    decide_False, if_false, Bool.false_eq_true]

/-- The loop fails with the failure of the loop body at any position that it reaches. -/
theorem PreProcessLoop_fail_at (source : Str) (p : Nat) (e : Failure)
    (hbad : ∀ m, PreProcessBody source p m = .error e) :
    ∀ (fuel pos : Nat) (m : ShaderSources), p ∈ PreProcessTrace source fuel pos m →
      PreProcessLoop source fuel pos m = .error e := by
  intro fuel
  induction fuel with
  | zero => intro pos m hx; simp [PreProcessTrace] at hx
  | succ fuel ih =>
    intro pos m hx
    by_cases hn : pos = npos
    · subst hn; simp [PreProcessTrace_npos] at hx
    rw [PreProcessTrace_succ _ _ _ _ hn] at hx
    rw [PreProcessLoop_succ _ _ _ _ hn]
    rcases List.mem_cons.mp hx with rfl | hx
    · rw [hbad m]
    · cases hb : PreProcessBody source pos m with
      | error e => rw [hb] at hx; simp at hx
      | ok r =>
        obtain ⟨pos', m'⟩ := r
        rw [hb] at hx
        exact ih pos' m' hx

theorem PreProcess_fail_at (source : Str) (p : Nat) (e : Failure)
    (hbad : ∀ m, PreProcessBody source p m = .error e) (hp : p ∈ scanPositions source) :
    PreProcess source = .error e :=
  PreProcessLoop_fail_at source p e hbad _ _ _ hp

/-- The scan reaches the first occurrence of the token. -/
theorem scanPositions_first (pre r : Str) (hpre : tokenFree pre)
    (hlen : (pre ++ (typeToken ++ r)).length < npos) :
    pre.length ∈ scanPositions (pre ++ (typeToken ++ r)) := by
  unfold scanPositions
  have hfind : find (pre ++ (typeToken ++ r)) typeToken 0 = pre.length := by
    have := find_token_at (s := pre ++ (typeToken ++ r)) (u := []) (a := pre) (r := r)
      (k := 0) rfl rfl hpre
    simpa using this
  have hne : pre.length ≠ npos := by
    simp only [List.length_append] at hlen; omega
  obtain ⟨f, hf⟩ : ∃ f, (pre ++ (typeToken ++ r)).length = f + 1 :=
    ⟨pre.length + 4 + r.length, by simp [typeToken_eq]; omega⟩
  rw [hfind, hf, PreProcessTrace_succ _ _ _ _ hne]
  simp

theorem occursAt_append (pre r : Str) : occursAt (pre ++ (typeToken ++ r)) pre.length := by
  unfold occursAt
  rw [List.drop_left]
  exact List.prefix_append _ _



theorem stripNewlines_of_head (s : Str) (h : s.head? ≠ some '\n') : stripNewlines s = s := by
  unfold stripNewlines
  cases s with
  | nil => rfl
  | cons c cs =>
    have : c ≠ '\n' := fun hc => h (by simp [hc])
    rw [List.dropWhile_cons_of_neg (by simpa using this)]

/-! ### Which block an entry of the map comes from -/

/-- After `m[k] = v` on a map with distinct keys, the entries are `(k, v)` and the entries of
`m` under the other keys. -/
theorem assign_mem (m : ShaderSources) (k : Nat) (v : Str) (h : (m.map Prod.fst).Nodup)
    (k' : Nat) (v' : Str) :
    (k', v') ∈ assign m k v ↔ (k' = k ∧ v' = v) ∨ (k' ≠ k ∧ (k', v') ∈ m) := by
  induction m with
  | nil => simp [assign]
  | cons kv rest ih =>
    obtain ⟨k₀, v₀⟩ := kv
    rw [List.map_cons, List.nodup_cons] at h
    by_cases hk : k₀ = k
    · subst hk
      have hnot : ∀ w, (k₀, w) ∉ rest := fun w hw =>
        h.1 (List.mem_map.mpr ⟨(k₀, w), hw, rfl⟩)
      rw [assign_same]
      constructor
      · intro hm
        rcases List.mem_cons.mp hm with heq | hm
        · left; exact ⟨(Prod.mk.inj heq).1, (Prod.mk.inj heq).2⟩
        · right
          refine ⟨fun hk' => hnot v' (hk' ▸ hm), List.mem_cons_of_mem _ hm⟩
      · rintro (⟨rfl, rfl⟩ | ⟨hne, hm⟩)
        · exact List.mem_cons_self _ _
        · rcases List.mem_cons.mp hm with heq | hm
          · exact absurd (Prod.mk.inj heq).1 hne
          · exact List.mem_cons_of_mem _ hm
    · simp only [assign, if_neg hk, List.mem_cons, ih h.2, Prod.mk.injEq]
      constructor
      · rintro (⟨rfl, rfl⟩ | ⟨rfl, rfl⟩ | ⟨hne, hm⟩)
        · right; exact ⟨hk, Or.inl ⟨rfl, rfl⟩⟩
        · left; exact ⟨rfl, rfl⟩
        · right; exact ⟨hne, Or.inr hm⟩
      · rintro (⟨rfl, rfl⟩ | ⟨hne, ⟨rfl, rfl⟩ | hm⟩)
        · right; left; exact ⟨rfl, rfl⟩
        · left; exact ⟨rfl, rfl⟩
        · right; right; exact ⟨hne, hm⟩

theorem collect_cons (m : ShaderSources) (b : Str × Str) (bs : List (Str × Str)) :
    collect m (b :: bs) = collect (assign m (stageTag b.1) (stripNewlines b.2)) bs := rfl

theorem collect_keys_nodup (blocks : List (Str × Str)) (m : ShaderSources)
    (h : (m.map Prod.fst).Nodup) : ((collect m blocks).map Prod.fst).Nodup := by
  induction blocks generalizing m with
  | nil => exact h
  | cons b bs ih =>
    rw [collect_cons]
    exact ih _ (assign_keys_nodup m _ _ h)

/-- An entry of the collected map is the stripped body of the last block with its tag, or
an entry of the map at the start whose tag no block has. -/
theorem collect_mem (blocks : List (Str × Str)) (m : ShaderSources)
    (h : (m.map Prod.fst).Nodup) (tag : Nat) (text : Str) :
    (tag, text) ∈ collect m blocks ↔
      (∃ before name body after, blocks = before ++ (name, body) :: after ∧
        stageTag name = tag ∧ (∀ b ∈ after, stageTag b.1 ≠ tag) ∧
        text = stripNewlines body) ∨
      ((tag, text) ∈ m ∧ ∀ b ∈ blocks, stageTag b.1 ≠ tag) := by
  induction blocks generalizing m with
  | nil => simp [collect]
  | cons b bs ih =>
    obtain ⟨name₀, body₀⟩ := b
    rw [collect_cons, ih _ (assign_keys_nodup m _ _ h), assign_mem m _ _ h]
    constructor
    · rintro (⟨before, name, body, after, rfl, h1, h2, h3⟩ | ⟨⟨h1, h2⟩ | ⟨h1, h2⟩, h3⟩)
      · exact Or.inl ⟨(name₀, body₀) :: before, name, body, after, rfl, h1, h2, h3⟩
      · exact Or.inl ⟨[], name₀, body₀, bs, rfl, h1.symm, h3, h2⟩
      · right
        refine ⟨h2, fun b hb => ?_⟩
        rcases List.mem_cons.mp hb with rfl | hb
        · exact fun heq => h1 heq.symm
        · exact h3 b hb
    · rintro (⟨before, name, body, after, heq, h1, h2, h3⟩ | ⟨h1, h2⟩)
      · cases before with
        | nil =>
          rw [List.nil_append, List.cons.injEq, Prod.mk.injEq] at heq
          obtain ⟨⟨rfl, rfl⟩, rfl⟩ := heq
          exact Or.inr ⟨Or.inl ⟨h1.symm, h3⟩, h2⟩
        | cons b' before' =>
          rw [List.cons_append, List.cons.injEq] at heq
          exact Or.inl ⟨before', name, body, after, heq.2, h1, h2, h3⟩
      · right
        refine ⟨Or.inr ⟨fun heq => h2 (name₀, body₀) (List.mem_cons_self _ _) heq.symm, h1⟩,
          fun b hb => h2 b (List.mem_cons_of_mem _ hb)⟩

/-- Blocks that all have the same tag leave one entry, with the body of the last block. -/
theorem collect_same (blocks : List (Str × Str)) (tag : Nat) (v : Str) (name body : Str)
    (hall : ∀ b ∈ blocks, stageTag b.1 = tag) (hlast : blocks.getLast? = some (name, body)) :
    collect [(tag, v)] blocks = [(tag, stripNewlines body)] := by
  induction blocks generalizing v with
  | nil => simp at hlast
  | cons b bs ih =>
    rw [collect_cons, hall b (List.mem_cons_self _ _), assign_same]
    cases bs with
    | nil =>
      simp only [List.getLast?_singleton, Option.some.injEq] at hlast
      subst hlast; rfl
    | cons b' bs' =>
      rw [List.getLast?_cons_cons] at hlast
      exact ih _ (fun x hx => hall x (List.mem_cons_of_mem _ hx)) hlast

/-! ## The claims -/

/-- C4: `ShaderTypeFromString` resolves `vertex` to the Vertex tag and both `fragment` and
`pixel` to the Fragment tag, which differs from the Vertex tag; every other string, compared
exactly, fails the unknown-shader-type assertion instead of giving a tag. -/
theorem ShaderTypeFromString_resolution :
    ShaderTypeFromString "vertex".toList = .ok GL_VERTEX_SHADER ∧
    ShaderTypeFromString "fragment".toList = .ok GL_FRAGMENT_SHADER ∧
    ShaderTypeFromString "pixel".toList = .ok GL_FRAGMENT_SHADER ∧
    GL_FRAGMENT_SHADER ≠ GL_VERTEX_SHADER ∧
    (∀ type : Str, type ≠ "vertex".toList → type ≠ "fragment".toList →
      type ≠ "pixel".toList → ShaderTypeFromString type = .error .unknownShaderType) ∧
    ShaderTypeFromString "Vertex".toList = .error .unknownShaderType ∧
    ShaderTypeFromString "vertex ".toList = .error .unknownShaderType ∧
    ShaderTypeFromString "vertex\r".toList = .error .unknownShaderType ∧
    ShaderTypeFromString "compute".toList = .error .unknownShaderType ∧
    ShaderTypeFromString "".toList = .error .unknownShaderType := by
  refine ⟨rfl, rfl, rfl, by decide, ?_, rfl, rfl, rfl, rfl, rfl⟩
  intro type h1 h2 h3
  apply ShaderTypeFromString_invalid
  rintro (h | h | h)
  · exact h1 h
  · exact h2 h
  · exact h3 h

/-- C4, at a concrete input: the name `geometry` is none of the three stage names and fails
the unknown-shader-type assertion. -/
theorem ShaderTypeFromString_resolution_witness :
    ShaderTypeFromString "geometry".toList = .error .unknownShaderType :=
  ShaderTypeFromString_resolution.2.2.2.2.1 "geometry".toList (by decide) (by decide)
    (by decide)

/-- C1, as stated, fails: the body `"\na"` of the vertex block comes back as `"a"`, without
its leading line break, and with an empty fragment body `PreProcess` returns no mapping. -/
theorem PreProcess_round_trip_counterexample :
    tokenFree "\na".toList ∧ tokenFree "b".toList ∧ tokenFree "".toList ∧
    PreProcess ("#type vertex\n".toList ++ "\na".toList ++ "#type fragment\n".toList ++
      "b".toList) = .ok [(GL_VERTEX_SHADER, "a".toList), (GL_FRAGMENT_SHADER, "b".toList)] ∧
    PreProcess ("#type vertex\n".toList ++ "\na".toList ++ "#type fragment\n".toList ++
      "b".toList) ≠ .ok [(GL_VERTEX_SHADER, "\na".toList), (GL_FRAGMENT_SHADER, "b".toList)] ∧
    PreProcess ("#type vertex\n".toList ++ "a".toList ++ "#type fragment\n".toList ++
      "".toList) = .error .syntaxErrorNextLine := by
  decide

/-- C1, amended: for token-free `A` and `B`, where `B` has a character other than `'\n'`,
`PreProcess` on `"#type vertex\n" ++ A ++ "#type fragment\n" ++ B` succeeds with exactly the
two entries Vertex and Fragment, whose texts are `A` and `B` without their leading line
breaks; they are `A` and `B` themselves when neither starts with a line break. -/
theorem PreProcess_round_trip (A B : Str) (hA : tokenFree A) (hB : tokenFree B)
    (hText : hasText B)
    (hlen : ("#type vertex\n".toList ++ A ++ "#type fragment\n".toList ++ B).length < npos) :
    PreProcess ("#type vertex\n".toList ++ A ++ "#type fragment\n".toList ++ B) =
      .ok [(GL_VERTEX_SHADER, stripNewlines A), (GL_FRAGMENT_SHADER, stripNewlines B)] ∧
    (A.head? ≠ some '\n' → B.head? ≠ some '\n' →
      PreProcess ("#type vertex\n".toList ++ A ++ "#type fragment\n".toList ++ B) =
        .ok [(GL_VERTEX_SHADER, A), (GL_FRAGMENT_SHADER, B)]) := by
  have hsrc : "#type vertex\n".toList ++ A ++ "#type fragment\n".toList ++ B =
      [] ++ render [("vertex".toList, A), ("fragment".toList, B)] := by
    simp [render, marker, typeToken_eq]
  have hwf : wellFormed [("vertex".toList, A), ("fragment".toList, B)] := by
    refine ⟨fun b hb => ?_, fun b hb => ?_⟩
    · rcases List.mem_cons.mp hb with rfl | hb
      · exact ⟨Or.inl rfl, hA⟩
      · rcases List.mem_singleton.mp hb with rfl
        exact ⟨Or.inr (Or.inl rfl), hB⟩
    · simp only [List.getLast?_cons_cons, List.getLast?_singleton, Option.mem_def,
        Option.some.injEq] at hb
      subst hb; exact hText
  have key := PreProcess_render [] _ (by decide) hwf (by rw [← hsrc]; exact hlen)
  rw [← hsrc] at key
  have hmap : collect [] [("vertex".toList, A), ("fragment".toList, B)] =
      [(GL_VERTEX_SHADER, stripNewlines A), (GL_FRAGMENT_SHADER, stripNewlines B)] := by
    simp only [collect, List.foldl_cons, List.foldl_nil]
    rfl
  rw [hmap] at key
  refine ⟨key, fun h1 h2 => ?_⟩
  rw [key, stripNewlines_of_head A h1, stripNewlines_of_head B h2]

/-- C1, amended, at a concrete input. -/
theorem PreProcess_round_trip_witness :
    PreProcess ("#type vertex\n".toList ++ "\nvoid main() {}\n".toList ++
      "#type fragment\n".toList ++ "out vec4 color;\n".toList) =
      .ok [(GL_VERTEX_SHADER, "void main() {}\n".toList),
        (GL_FRAGMENT_SHADER, "out vec4 color;\n".toList)] :=
  (PreProcess_round_trip "\nvoid main() {}\n".toList "out vec4 color;\n".toList
    (by decide) (by decide) (by decide) (by decide)).1

/-- C2, as stated, fails: on the input `"#type vertex\n"` with nothing following,
`PreProcess` does not return the mapping of Vertex to the empty string; it fails the
assertion `nextLinePos != npos`. -/
theorem PreProcess_marker_at_end_counterexample :
    PreProcess "#type vertex\n".toList ≠ .ok [(GL_VERTEX_SHADER, [])] ∧
    PreProcess "#type vertex\n".toList = .error .syntaxErrorNextLine := by
  decide

/-- C2, amended: an input that ends with a marker line `#type <name>\n` is rejected.
`PreProcess` fails and returns no mapping, and when the name is a valid stage and the scan
reaches the marker, the failure is the assertion `nextLinePos != npos`. -/
theorem PreProcess_marker_at_end (pre name : Str) (hname : ∀ c ∈ name, c ≠ '\n')
    (hlen : (pre ++ marker name).length < npos) :
    (∃ e, PreProcess (pre ++ marker name) = .error e ∧ e ≠ .outOfFuel) ∧
    (validStage name → pre.length ∈ scanPositions (pre ++ marker name) →
      PreProcess (pre ++ marker name) = .error .syntaxErrorNextLine) ∧
    (validStage name → tokenFree pre →
      PreProcess (pre ++ marker name) = .error .syntaxErrorNextLine) := by
  have hocc : occursAt (pre ++ marker name) pre.length := by
    have := occursAt_append pre (' ' :: name ++ ['\n'])
    simpa [marker] using this
  have hlen' : (pre ++ (marker name ++ [])).length < npos := by simpa using hlen
  have hend : validStage name → ∀ m,
      PreProcessBody (pre ++ marker name) pre.length m = .error .syntaxErrorNextLine := by
    intro hv m
    have := PreProcessBody_marker_end pre name [] m hv (by simp) hlen'
    simpa using this
  refine ⟨?_, fun hv hp => PreProcess_fail_at _ _ _ (hend hv) hp, fun hv hfree => ?_⟩
  · apply PreProcess_bad_occurrence hlen hocc
    intro m
    by_cases hv : validStage name
    · exact ⟨_, hend hv m⟩
    · have := PreProcessBody_marker_invalid pre name [] m hname hv hlen'
      exact ⟨_, by simpa using this⟩
  · apply PreProcess_fail_at _ _ _ (hend hv)
    have := scanPositions_first pre (' ' :: name ++ ['\n']) hfree (by simpa [marker] using hlen)
    simpa [marker] using this

/-- C2, amended, at a concrete input: a fragment block followed by a vertex marker that
ends the input. -/
theorem PreProcess_marker_at_end_witness :
    PreProcess ("#type fragment\nx\n".toList ++ marker "vertex".toList) =
      .error .syntaxErrorNextLine :=
  (PreProcess_marker_at_end "#type fragment\nx\n".toList "vertex".toList (by decide)
    (by decide)).2.1 (by decide) (by decide)

/-- C5: an input with a marker line `#type <id>\n` whose identifier is not one of `vertex`,
`fragment`, `pixel` makes `PreProcess` fail without any mapping, also when valid blocks
precede the marker; when the scan reaches the marker, and so when the input begins with it
as in `"#type compute\n..."`, the failure is the unknown-shader-type assertion of the stage
name resolution. -/
theorem PreProcess_invalid_stage (pre id post : Str) (hid : ∀ c ∈ id, c ≠ '\n')
    (hbad : id ≠ "vertex".toList ∧ id ≠ "fragment".toList ∧ id ≠ "pixel".toList)
    (hlen : (pre ++ marker id ++ post).length < npos) :
    (∃ e, PreProcess (pre ++ marker id ++ post) = .error e ∧ e ≠ .outOfFuel) ∧
    (pre.length ∈ scanPositions (pre ++ marker id ++ post) →
      PreProcess (pre ++ marker id ++ post) = .error .unknownShaderType) ∧
    (tokenFree pre → PreProcess (pre ++ marker id ++ post) = .error .unknownShaderType) := by
  have hinv : ¬ validStage id := by
    rintro (h | h | h)
    · exact hbad.1 h
    · exact hbad.2.1 h
    · exact hbad.2.2 h
  have hsrc : pre ++ marker id ++ post = pre ++ (marker id ++ post) := by simp
  rw [hsrc] at hlen ⊢
  have hocc : occursAt (pre ++ (marker id ++ post)) pre.length := by
    have := occursAt_append pre (' ' :: id ++ ['\n'] ++ post)
    simpa [marker] using this
  have hbody := fun m => PreProcessBody_marker_invalid pre id post m hid hinv hlen
  refine ⟨PreProcess_bad_occurrence hlen hocc (fun m => ⟨_, hbody m⟩),
    fun hp => PreProcess_fail_at _ _ _ hbody hp, fun hfree => ?_⟩
  apply PreProcess_fail_at _ _ _ hbody
  have := scanPositions_first pre (' ' :: id ++ ['\n'] ++ post) hfree
    (by simpa [marker] using hlen)
  simpa [marker] using this

/-- C5, at concrete inputs: a valid vertex block, then the marker `#type compute`, then more
text; and an input that begins with `#type compute`. -/
theorem PreProcess_invalid_stage_witness :
    (∃ e, PreProcess ("#type vertex\nabc\n".toList ++ marker "compute".toList ++
      "void main() {}".toList) = .error e ∧ e ≠ .outOfFuel) ∧
    PreProcess ([] ++ marker "compute".toList ++ "void main() {}".toList) =
      .error .unknownShaderType :=
  ⟨(PreProcess_invalid_stage "#type vertex\nabc\n".toList "compute".toList
      "void main() {}".toList (by decide) (by decide) (by decide)).1,
    (PreProcess_invalid_stage [] "compute".toList "void main() {}".toList (by decide)
      (by decide) (by decide)).2.2 (by decide)⟩

/-- C6: when the scan reaches an occurrence of `#type` with no `'\n'` anywhere after it,
`PreProcess` fails the assertion `eol != npos` ("Syntax error") instead of returning a
mapping. -/
theorem PreProcess_marker_without_line_end (source : Str) (p : Nat)
    (hreach : p ∈ scanPositions source) (hno : ∀ c ∈ source.drop p, c ≠ '\n') :
    occursAt source p ∧ PreProcess source = .error .syntaxError := by
  refine ⟨((scanPositions_spec source).2 p hreach).2, ?_⟩
  apply PreProcess_fail_at source p .syntaxError _ hreach
  intro m
  unfold PreProcessBody
  rw [find_first_of_none source '\n' p hno]
  simp [HZ_CORE_ASSERT, bind, Except.bind]

/-- C6, at a concrete input: a valid vertex block followed by `#type fragment` at the end of
the input. -/
theorem PreProcess_marker_without_line_end_witness :
    PreProcess "#type vertex\nabc\n#type fragment".toList = .error .syntaxError :=
  (PreProcess_marker_without_line_end "#type vertex\nabc\n#type fragment".toList 17
    (by decide) (by decide)).2

/-- C3, as stated, fails: `fragment` and `pixel` are two distinct valid markers, yet the
input with these two blocks gives one entry, not two, and a single vertex marker with an
empty body gives no mapping at all. -/
theorem PreProcess_entry_count_counterexample :
    PreProcess "#type fragment\na#type pixel\nb".toList =
      .ok [(GL_FRAGMENT_SHADER, "b".toList)] ∧
    PreProcess "#type vertex\n".toList = .error .syntaxErrorNextLine := by
  decide

/-- C3, amended: for a token-free text followed by `k` well-formed blocks (valid stage names,
token-free bodies, a character other than `'\n'` in the last body) whose names resolve to
pairwise different tags, `PreProcess` returns exactly `k` entries, the entry of each block
keyed by the tag its marker names, and `k` is at most 2; with no block, that is with no
occurrence of `#type` in the input, it returns the empty mapping. -/
theorem PreProcess_entry_count (head : Str) (blocks : List (Str × Str))
    (hhead : tokenFree head) (hwf : wellFormed blocks)
    (hdistinct : (blocks.map (fun b => stageTag b.1)).Nodup)
    (hlen : (head ++ render blocks).length < npos) :
    ∃ m, PreProcess (head ++ render blocks) = .ok m ∧
      m = blocks.map (fun b => (stageTag b.1, stripNewlines b.2)) ∧
      m.length = blocks.length ∧
      m.map Prod.fst = blocks.map (fun b => stageTag b.1) ∧
      blocks.length ≤ 2 ∧
      (blocks = [] → PreProcess head = .ok []) := by
  have key := PreProcess_render head blocks hhead hwf hlen
  have hmap := collect_nodup blocks [] hdistinct (by simp)
  rw [List.nil_append] at hmap
  refine ⟨_, key, hmap, by rw [hmap]; simp, by rw [hmap]; simp, ?_, ?_⟩
  · obtain ⟨h1, h2⟩ := PreProcessLoop_keys (head ++ render blocks) _ _ [] _ (by simp) (by simp) key
    have := keys_length_le_two _ h1 h2
    rw [hmap] at this
    simpa using this
  · rintro rfl
    simpa [render, collect] using key

/-- C3, amended, at a concrete input: a comment line, a pixel block and a vertex block. -/
theorem PreProcess_entry_count_witness :
    ∃ m, PreProcess ("// basic shader\n".toList ++
        render [("pixel".toList, "\ncolor\n".toList), ("vertex".toList, "position".toList)]) =
        .ok m ∧
      m = [("pixel".toList, "\ncolor\n".toList), ("vertex".toList, "position".toList)].map
        (fun b => (stageTag b.1, stripNewlines b.2)) ∧
      m.length = 2 ∧
      m.map Prod.fst = [GL_FRAGMENT_SHADER, GL_VERTEX_SHADER] ∧
      2 ≤ 2 ∧
      ([("pixel".toList, "\ncolor\n".toList), ("vertex".toList, "position".toList)] = [] →
        PreProcess "// basic shader\n".toList = .ok []) :=
  PreProcess_entry_count "// basic shader\n".toList
    [("pixel".toList, "\ncolor\n".toList), ("vertex".toList, "position".toList)]
    (by decide) (by decide) (by decide) (by decide)

/-- C7, as stated, fails: with two vertex blocks whose last body is `"\nb"` the entry holds
`"b"`, not the body itself, and with an empty last body `PreProcess` returns no mapping. -/
theorem PreProcess_duplicate_stage_counterexample :
    PreProcess ("#type vertex\n".toList ++ "a".toList ++ "#type vertex\n".toList ++
      "\nb".toList) = .ok [(GL_VERTEX_SHADER, "b".toList)] ∧
    "b".toList ≠ "\nb".toList ∧
    PreProcess ("#type vertex\n".toList ++ "a".toList ++ "#type vertex\n".toList ++
      "".toList) = .error .syntaxErrorNextLine := by
  decide

/-- C7, amended: duplicate stage tags resolve to the last occurrence, for any number of
blocks.  For a token-free text followed by well-formed blocks (valid stage names, token-free
bodies, a character other than `'\n'` in the last body), `PreProcess` returns a mapping with
one entry for each tag, and the text under a tag is the body of the last block whose name
resolves to that tag, without its leading line breaks; the bodies of the earlier blocks of
that tag are discarded.  When all blocks resolve to the same tag (two `vertex` blocks, or
`fragment` then `pixel`) the mapping has exactly one entry, with the body of the last block,
which is that body itself when it does not start with a line break. -/
theorem PreProcess_duplicate_stage (head : Str) (blocks : List (Str × Str))
    (hhead : tokenFree head) (hwf : wellFormed blocks)
    (hlen : (head ++ render blocks).length < npos) :
    ∃ m, PreProcess (head ++ render blocks) = .ok m ∧
      (m.map Prod.fst).Nodup ∧
      (∀ tag text, (tag, text) ∈ m ↔
        ∃ before name body after, blocks = before ++ (name, body) :: after ∧
          stageTag name = tag ∧ (∀ b ∈ after, stageTag b.1 ≠ tag) ∧
          text = stripNewlines body) ∧
      (∀ tag name body, blocks.getLast? = some (name, body) →
        (∀ b ∈ blocks, stageTag b.1 = tag) →
        m = [(tag, stripNewlines body)] ∧ (body.head? ≠ some '\n' → m = [(tag, body)])) := by
  refine ⟨_, PreProcess_render head blocks hhead hwf hlen,
    collect_keys_nodup blocks [] (by simp), fun tag text => ?_, fun tag name body hlast hall => ?_⟩
  · rw [collect_mem blocks [] (by simp)]
    simp
  · have hm : collect [] blocks = [(tag, stripNewlines body)] := by
      cases blocks with
      | nil => simp at hlast
      | cons b bs =>
        rw [collect_cons, hall b (List.mem_cons_self _ _), assign_nil]
        cases bs with
        | nil =>
          simp only [List.getLast?_singleton, Option.some.injEq] at hlast
          subst hlast; rfl
        | cons b' bs' =>
          rw [List.getLast?_cons_cons] at hlast
          exact collect_same _ tag _ name body
            (fun x hx => hall x (List.mem_cons_of_mem _ hx)) hlast
    refine ⟨hm, fun h => ?_⟩
    rw [hm, stripNewlines_of_head body h]

/-- C7, amended, at concrete inputs: three vertex blocks leave the body of the third; and
of a fragment, a vertex and a pixel block the mapping has distinct keys and its Fragment
entry holds the body of the pixel block. -/
theorem PreProcess_duplicate_stage_witness :
    PreProcess ([] ++ render [("vertex".toList, "first\n".toList),
      ("vertex".toList, "second\n".toList), ("vertex".toList, "third\n".toList)]) =
      .ok [(GL_VERTEX_SHADER, "third\n".toList)] ∧
    ∃ m, PreProcess ([] ++ render [("fragment".toList, "a\n".toList),
        ("vertex".toList, "b\n".toList), ("pixel".toList, "\nc".toList)]) = .ok m ∧
      (m.map Prod.fst).Nodup ∧ (GL_FRAGMENT_SHADER, "c".toList) ∈ m := by
  constructor
  · obtain ⟨m, h1, -, -, h4⟩ := PreProcess_duplicate_stage []
      [("vertex".toList, "first\n".toList), ("vertex".toList, "second\n".toList),
        ("vertex".toList, "third\n".toList)] (by decide) (by decide) (by decide)
    rw [h1, (h4 GL_VERTEX_SHADER "vertex".toList "third\n".toList rfl (by decide)).1]
    rfl
  · obtain ⟨m, h1, h2, h3, -⟩ := PreProcess_duplicate_stage []
      [("fragment".toList, "a\n".toList), ("vertex".toList, "b\n".toList),
        ("pixel".toList, "\nc".toList)] (by decide) (by decide) (by decide)
    exact ⟨m, h1, h2, (h3 GL_FRAGMENT_SHADER "c".toList).mpr
      ⟨[("fragment".toList, "a\n".toList), ("vertex".toList, "b\n".toList)],
        "pixel".toList, "\nc".toList, [], rfl, rfl, by simp, rfl⟩⟩

/-- C8: `PreProcess` ends on every input.  The loop never uses up its budget, so a larger
budget gives the same result; in every iteration `pos <= eol < nextLinePos` and the next
marker is searched from `nextLinePos`, so the next position is `npos` or greater than the
current one; the positions reached are strictly increasing occurrences of `#type`, and
there are at most as many iterations as occurrences of `#type` in the input. -/
theorem PreProcess_terminates (source : Str) :
    PreProcess source ≠ .error .outOfFuel ∧
    (∀ extra, PreProcessLoop source (source.length + extra) (find source typeToken 0) [] =
      PreProcess source) ∧
    (∀ pos m pos' m', PreProcessBody source pos m = .ok (pos', m') →
      pos ≤ find_first_of source '\n' pos ∧
      find_first_of source '\n' pos <
        find_first_not_of source '\n' (find_first_of source '\n' pos) ∧
      pos' = find source typeToken
        (find_first_not_of source '\n' (find_first_of source '\n' pos)) ∧
      (pos' = npos ∨ pos < pos')) ∧
    (scanPositions source).Pairwise (fun a b => a < b) ∧
    (∀ p ∈ scanPositions source, occursAt source p) ∧
    (scanPositions source).length ≤ (occurrences source).length := by
  refine ⟨PreProcess_ne_outOfFuel source,
    fun extra => PreProcessLoop_fuel_mono source _ extra _ _ (PreProcess_ne_outOfFuel source),
    ?_, (scanPositions_spec source).1, fun p hp => ((scanPositions_spec source).2 p hp).2,
    (scanPositions_sublist source).length_le⟩
  intro pos m pos' m' h
  obtain ⟨a1, a2, -, a4⟩ := PreProcessBody_advance h
  obtain ⟨_, _, _, _, _, _, _, h5, _⟩ := PreProcessBody_ok h
  refine ⟨a1, a2, h5, ?_⟩
  rcases a4 with a4 | ⟨a4, -, -⟩
  · left; exact a4
  · right; omega

/-- C8, at a concrete input with four occurrences of `#type`, one of them inside a marker
line: the scan makes two iterations and fails in the second. -/
theorem PreProcess_terminates_witness :
    scanPositions "#type vertex\na\n#type fragment #type\nb#type pixel\nc".toList =
      [0, 15] ∧
    occurrences "#type vertex\na\n#type fragment #type\nb#type pixel\nc".toList =
      [0, 15, 30, 37] ∧
    (scanPositions "#type vertex\na\n#type fragment #type\nb#type pixel\nc".toList).length ≤
      (occurrences "#type vertex\na\n#type fragment #type\nb#type pixel\nc".toList).length :=
  ⟨by decide, by decide,
    (PreProcess_terminates
      "#type vertex\na\n#type fragment #type\nb#type pixel\nc".toList).2.2.2.2.2⟩

/-- C9: a mapping returned by `PreProcess` has at most 2 entries, with distinct keys that
are the Vertex or the Fragment tag, however many markers the input has; so the assertion
`shaderSources.size() <= 2` of `Compile` holds for it, and every index at which the loop of
`Compile` writes `glShaderIDs` is below 2. -/
theorem PreProcess_at_most_two_entries (source : Str) (m : ShaderSources)
    (h : PreProcess source = .ok m) :
    m.length ≤ 2 ∧
    (∀ kv ∈ m, kv.1 = GL_VERTEX_SHADER ∨ kv.1 = GL_FRAGMENT_SHADER) ∧
    (m.map Prod.fst).Nodup ∧
    CompileSizeAssert m = .ok () ∧
    ∀ (isCompiled : Nat → Str → Bool), ∀ i ∈ CompileWrites isCompiled m 0, i < 2 := by
  obtain ⟨h1, h2⟩ := PreProcessLoop_keys source _ _ [] m (by simp) (by simp) h
  have h3 := keys_length_le_two m h1 h2
  refine ⟨h3, fun kv hkv => h2 kv.1 (List.mem_map.mpr ⟨kv, hkv, rfl⟩), h1, ?_, ?_⟩
  · simp [CompileSizeAssert, HZ_CORE_ASSERT, h3]
  · intro isCompiled i hi
    have := CompileWrites_lt isCompiled m 0 i hi
    omega

/-- C9, at a concrete input with four markers. -/
theorem PreProcess_at_most_two_entries_witness :
    [(GL_VERTEX_SHADER, "d".toList), (GL_FRAGMENT_SHADER, "c".toList)].length ≤ 2 ∧
    CompileSizeAssert [(GL_VERTEX_SHADER, "d".toList), (GL_FRAGMENT_SHADER, "c".toList)] =
      .ok () :=
  have h := PreProcess_at_most_two_entries
    "#type vertex\na#type fragment\nb#type pixel\nc#type vertex\nd".toList
    [(GL_VERTEX_SHADER, "d".toList), (GL_FRAGMENT_SHADER, "c".toList)] (by decide)
  ⟨h.1, h.2.2.2.1⟩

/-- C10: the name that the file-path constructor computes is the final path component (the
text after the last `'/'` or `'\\'`, the whole path without one) cut just before its last
`'.'`, and the whole final component when it has no `'.'`, also when the last `'.'` of the
path lies before the last separator and `lastDot - lastSlash` wraps around; the start index
of `substr` is the length of the directory part and never exceeds the path length. -/
theorem extractName_final_component (filepath : Str) (hlen : filepath.length < npos) :
    extractName filepath = .ok (cutAtLastDot (finalComponent filepath)) ∧
    (if find_last_of filepath "/\\".toList = npos then 0
      else sizeAdd (find_last_of filepath "/\\".toList) 1) + (finalComponent filepath).length =
        filepath.length ∧
    (if find_last_of filepath "/\\".toList = npos then 0
      else sizeAdd (find_last_of filepath "/\\".toList) 1) ≤ filepath.length := by
  obtain ⟨dir, h1, h2, h3⟩ := path_split filepath
  generalize finalComponent filepath = comp at h1 h2
  subst h1
  have hslash := lastSlash_split dir comp h2 h3 hlen
  refine ⟨extractName_split dir comp h2 h3 hlen, ?_, ?_⟩
  · rw [hslash]; simp
  · rw [hslash]; simp

/-- C10, at a concrete input: the last `'.'` lies in the directory part. -/
theorem extractName_final_component_witness :
    extractName "dir.v1/shader".toList = .ok "shader".toList :=
  (extractName_final_component "dir.v1/shader".toList (by decide)).1

end hazel
